import Mathlib

/-!
Shallow embedding of the log-structured key-value store engine
(src/engines/kvs.rs) and its TCP server loop (src/server.rs).

Modelling conventions:
- Machine integers (u64) are Nat; overflow never occurs in the engine
  arithmetic (byte counters and generation numbers only grow by small
  amounts), except in u64 string parsing where the 2^64 bound is modelled
  explicitly.
- A log file (segment) is the list of commands it contains, in file order;
  byte offsets and lengths are recovered from the serde_json encoding
  length of each command (encLen below).
- Stateful code is explicit state passing: mutations return the new state
  together with an optional error, read paths return the result and the
  updated per-handle reader cache.
- Locks are not modelled: all claims are about the sequential behaviour of
  the operations, each of which runs under the writer mutex and/or index
  lock in the source.
-/

/-- Commands serialized to the log (enum Command in src/engines/kvs.rs). -/
inductive Command where
  | set (key value : String)
  | remove (key : String)
deriving DecidableEq

/-- Byte length of one character in serde_json string escaping: quote and
backslash escape to two bytes, the control characters with short escapes
(backspace, tab, newline, form feed, carriage return) to two bytes, other
control characters to a six byte \u00XX sequence, and everything else is
emitted as its UTF-8 bytes. -/
def escCharLen (c : Char) : Nat :=
  if c = '"' ∨ c = '\\' then 2
  else if c = '\x08' ∨ c = '\t' ∨ c = '\n' ∨ c = '\x0c' ∨ c = '\r' then 2
  else if c.toNat < 0x20 then 6
  else c.utf8Size

/-- Total escaped byte length of a character list. -/
def escLenList : List Char → Nat
  | [] => 0
  | c :: cs => escCharLen c + escLenList cs

/-- Escaped byte length of a string's content (without the quotes). -/
def escLen (s : String) : Nat := escLenList s.data

/-- Byte length of a JSON string literal: the quotes plus escaped content. -/
def jsonStrLen (s : String) : Nat := escLen s + 2

/-- Byte length serde_json produces for a command.  A Set serializes as
an object of shape with fixed punctuation of 25 bytes around the two
string literals, a Remove with 19 bytes around the key literal. -/
def encLen : Command → Nat
  | .set k v => 25 + jsonStrLen k + jsonStrLen v
  | .remove k => 19 + jsonStrLen k

/-- Pointer to a command's position in the log (struct CommandPos). -/
structure CommandPos where
  gen : Nat
  pos : Nat
  len : Nat
deriving DecidableEq

/-- The in-memory index, key to log pointer.  The source uses a HashMap;
the model uses an association list with unique keys (insertion replaces
in place, fresh keys go to the back), which fixes one concrete iteration
order for compaction. -/
abbrev Index := List (String × CommandPos)

/-- One log file: the commands it contains, in file order. -/
abbrev Segment := List Command

/-- The log directory: generation number to segment, kept sorted by
ascending generation (a canonical representation of the file set). -/
abbrev Disk := List (Nat × Segment)

/-- Error type for kvs operations (enum KvError in src/error.rs); the
payloads of the Io and Serde cases are not modelled, and the Sled and
Utf8 cases belong to the other engine. -/
inductive KvError where
  | Io
  | Serde
  | KeyNotFound
  | UnexpectedCommandType
  | LogFileNotFound (gen : Nat)
  | StringError (msg : String)
deriving DecidableEq

/-- Human-readable rendering of an error (the thiserror Display impl). -/
def errString : KvError → String
  | .Io => "IO error"
  | .Serde => "Serde error"
  | .KeyNotFound => "Key not found"
  | .UnexpectedCommandType => "Unexpected command type"
  | .LogFileNotFound g => "Log file not found for generation " ++ toString g
  | .StringError m => m

/-- Writer-side state (struct KvStoreWriter): the active generation, the
set of generations the writer holds auxiliary read handles for (the keys
of its readers map), and the stale-byte counter.  The position of the
buffered writer is recoverable as the byte size of the active segment. -/
structure KvStoreWriter where
  current_gen : Nat
  readers : List Nat
  uncompacted : Nat
deriving DecidableEq

/-- Whole-store state: the on-disk directory, the shared index, the
writer state, the published safe point, and the invoking handle's private
reader cache (the generations it holds open read handles for). -/
structure KvStore where
  disk : Disk
  index : Index
  writer : KvStoreWriter
  safe_point : Nat
  reader_cache : List Nat
deriving DecidableEq

/-- Compaction threshold in bytes (const COMPACTION_THRESHOLD). -/
def COMPACTION_THRESHOLD : Nat := 1024 * 1024

/-- Index lookup (HashMap::get). -/
def idxLookup : Index → String → Option CommandPos
  | [], _ => none
  | (k', cp) :: rest, k => if k = k' then some cp else idxLookup rest k

/-- Index insertion (HashMap::insert): replaces in place, returns the
displaced pointer if any; fresh keys are appended at the back. -/
def idxInsert : Index → String → CommandPos → Index × Option CommandPos
  | [], k, cp => ([(k, cp)], none)
  | (k', cp') :: rest, k, cp =>
    if k = k' then ((k, cp) :: rest, some cp')
    else
      let r := idxInsert rest k cp
      ((k', cp') :: r.1, r.2)

/-- Index removal (HashMap::remove): returns the displaced pointer. -/
def idxErase : Index → String → Index × Option CommandPos
  | [], _ => ([], none)
  | (k', cp') :: rest, k =>
    if k = k' then (rest, some cp')
    else
      let r := idxErase rest k
      ((k', cp') :: r.1, r.2)

/-- Byte size of a segment: the sum of its records' encoded lengths. -/
def segBytes (seg : Segment) : Nat := (seg.map encLen).sum

/-- Total byte size of all log files in the directory. -/
def diskBytes (d : Disk) : Nat := (d.map (fun e => segBytes e.2)).sum

/-- Total bytes of records reachable from the index. -/
def liveBytes (idx : Index) : Nat := (idx.map (fun e => e.2.len)).sum

/-- Content of the log file for a generation, if that file exists. -/
def diskGet : Disk → Nat → Option Segment
  | [], _ => none
  | (g', seg) :: rest, g => if g = g' then some seg else diskGet rest g

/-- Append one record to the log file of a generation (a flushed write of
the serialized command at end of file). -/
def diskAppend (d : Disk) (g : Nat) (c : Command) : Disk :=
  d.map (fun e => if e.1 = g then (e.1, e.2 ++ [c]) else e)

/-- Create an empty log file for a generation (new_log_file); keeps the
directory sorted, and an already existing file is kept as is (the source
opens with create+append). -/
def diskCreate : Disk → Nat → Disk
  | [], g => [(g, [])]
  | (g', seg) :: rest, g =>
    if g < g' then (g, []) :: (g', seg) :: rest
    else if g = g' then (g', seg) :: rest
    else (g', seg) :: diskCreate rest g

/-- Decode the record occupying exactly the byte range [pos, pos+len) of a
segment: some command when the range covers exactly one record, none when
it does not fall on a record boundary of that length. -/
def recordAt : Segment → Nat → Nat → Option Command
  | [], _, _ => none
  | c :: rest, pos, len =>
    if pos = 0 then (if encLen c = len then some c else none)
    else if pos < encLen c then none
    else recordAt rest (pos - encLen c) len

/-- One step of log replay (the loop body of fn load): threads the byte
position, the index and the uncompacted counter through one decoded
command. -/
def loadStep (gen : Nat) : Nat × Index × Nat → Command → Nat × Index × Nat
  | (pos, idx, unc), c =>
    let len := encLen c
    match c with
    | .set k _ =>
      let r := idxInsert idx k ⟨gen, pos, len⟩
      (pos + len, r.1, unc + (match r.2 with | some o => o.len | none => 0))
    | .remove k =>
      let r := idxErase idx k
      (pos + len, r.1, unc + (match r.2 with | some o => o.len | none => 0) + len)

/-- Replay of a single log file into the index (fn load): returns the
updated index and the bytes of stale data contributed by this file. -/
def load (gen : Nat) (seg : Segment) (idx : Index) : Index × Nat :=
  let r := seg.foldl (loadStep gen) (0, idx, 0)
  (r.2.1, r.2.2)

/-- Replay a list of generations in order against the directory,
accumulating the index and the uncompacted counter (the replay loop of
KvStore::open). -/
def replayGens (d : Disk) : List Nat → Index × Nat → Index × Nat
  | [], acc => acc
  | g :: gs, (idx, unc) =>
    let r := load g ((diskGet d g).getD []) idx
    replayGens d gs (r.1, unc + r.2)

/-- Replay of the whole directory in stored (ascending) order, starting
from the empty index. -/
def replayRaw (d : Disk) : Index × Nat :=
  d.foldl (fun acc e =>
    let r := load e.1 e.2 acc.1
    (r.1, acc.2 + r.2)) ([], 0)

/-- Opening a store on a directory (KvStore::open): sort the generations,
replay them in ascending order, then create a fresh active segment at
max gen + 1, with readers registered for every replayed file and the new
active file.  The safe point starts at 0 and the handle's reader cache is
empty. -/
def KvStore.openStore (d : Disk) : KvStore :=
  let gens := List.insertionSort (· ≤ ·) (d.map Prod.fst)
  let r := replayGens d gens ([], 0)
  let current_gen := gens.getLast?.getD 0 + 1
  { disk := diskCreate d current_gen
    index := r.1
    writer := { current_gen := current_gen, readers := gens ++ [current_gen],
                uncompacted := r.2 }
    safe_point := 0
    reader_cache := [] }

/-- The copy loop of fn compact: for each index entry in iteration order,
read the record it points to through the writer's auxiliary readers,
append it to the compaction segment, and rewrite the entry to point into
the compaction generation.  A generation missing from the readers map is
the LogFileNotFound error; a byte range that does not cover exactly one
record is not representable at record level and cannot occur in reachable
states, it is mapped to the serde decode error. -/
def compactEntries (cgen : Nat) (readers : List Nat) :
    Index → Disk → Nat → Except KvError (Index × Disk × Nat)
  | [], d, npos => .ok ([], d, npos)
  | (k, cp) :: rest, d, npos =>
    if cp.gen ∈ readers then
      match recordAt ((diskGet d cp.gen).getD []) cp.pos cp.len with
      | some c =>
        match compactEntries cgen readers rest (diskAppend d cgen c) (npos + cp.len) with
        | .ok (idx', d', e) => .ok ((k, ⟨cgen, npos, cp.len⟩) :: idx', d', e)
        | .error e => .error e
      | none => .error .Serde
    else .error (.LogFileNotFound cp.gen)

/-- Compaction (fn compact): reserve the compaction generation at
current+1 and rotate the active writer to current+2, create both files,
copy every live record into the compaction segment rewriting the index,
then unlink every generation below the compaction generation, reset the
stale counter and publish the new safe point. -/
def compact (s : KvStore) : Except KvError KvStore :=
  let compaction_gen := s.writer.current_gen + 1
  let current_gen := s.writer.current_gen + 2
  let readers1 := s.writer.readers ++ [current_gen, compaction_gen]
  let d1 := diskCreate (diskCreate s.disk current_gen) compaction_gen
  match compactEntries compaction_gen readers1 s.index d1 0 with
  | .error e => .error e
  | .ok (idx', d2, _) =>
    let staleGens := readers1.filter (fun g => decide (g < compaction_gen))
    .ok { disk := d2.filter (fun e => !(decide (e.1 ∈ staleGens)))
          index := idx'
          writer := { current_gen := current_gen
                      readers := readers1.filter (fun g => !(decide (g ∈ staleGens)))
                      uncompacted := 0 }
          safe_point := compaction_gen
          reader_cache := s.reader_cache }

/-- The unconditional part of KvsEngine::set for KvStore: append the
serialized Set to the active segment at the current end of file and
insert the new pointer into the index, crediting a displaced entry's
length to the stale counter. -/
def setRaw (s : KvStore) (key value : String) : KvStore :=
  let cmd := Command.set key value
  let g := s.writer.current_gen
  let pos := segBytes ((diskGet s.disk g).getD [])
  let r := idxInsert s.index key ⟨g, pos, encLen cmd⟩
  let unc := s.writer.uncompacted + (match r.2 with | some o => o.len | none => 0)
  { s with disk := diskAppend s.disk g cmd
           index := r.1
           writer := { s.writer with uncompacted := unc } }

/-- KvsEngine::set for KvStore: the append and index update of setRaw,
then compaction when the stale counter exceeds the threshold.  On a
compaction error the already performed append and index update remain. -/
def KvStore.set (s : KvStore) (key value : String) : KvStore × Option KvError :=
  let s1 := setRaw s key value
  if COMPACTION_THRESHOLD < s1.writer.uncompacted then
    match compact s1 with
    | .ok s2 => (s2, none)
    | .error e => (s1, some e)
  else (s1, none)

/-- Reader-cache cleanup (KvStoreReader::close_stale_readers): when a safe
point has been published, drop cached handles for older generations. -/
def close_stale_readers (cache : List Nat) (sp : Nat) : List Nat :=
  if 0 < sp then cache.filter (fun g => decide (sp ≤ g)) else cache

/-- KvStoreReader::read_command: clean stale handles, lazily open a handle
for the target generation, decode exactly the pointed-to byte range; a
decoded Remove is the UnexpectedCommandType error, a range that is not a
record is a decode failure.  Returns the result and the updated cache. -/
def read_command (s : KvStore) (cp : CommandPos) :
    Except KvError (Option String) × List Nat :=
  let cache := close_stale_readers s.reader_cache s.safe_point
  let cache' := if cp.gen ∈ cache then cache else cache ++ [cp.gen]
  match recordAt ((diskGet s.disk cp.gen).getD []) cp.pos cp.len with
  | some (.set _ v) => (.ok (some v), cache')
  | some (.remove _) => (.error .UnexpectedCommandType, cache')
  | none => (.error .Serde, cache')

/-- KvsEngine::get for KvStore: look the key up in the index; absent keys
answer none, present keys are read through the handle's reader cache.
Only the reader cache of the invoking handle is updated. -/
def KvStore.get (s : KvStore) (key : String) :
    KvStore × Except KvError (Option String) :=
  match idxLookup s.index key with
  | some cp =>
    let r := read_command s cp
    ({ s with reader_cache := r.2 }, r.1)
  | none => (s, .ok none)

/-- KvsEngine::remove for KvStore: a key absent from the index fails with
KeyNotFound before anything is written; otherwise append the serialized
Remove to the active segment, drop the index entry and credit its length
to the stale counter.  No compaction check runs on this path. -/
def KvStore.remove (s : KvStore) (key : String) : KvStore × Option KvError :=
  if (idxLookup s.index key).isNone then (s, some .KeyNotFound)
  else
    let cmd := Command.remove key
    let g := s.writer.current_gen
    let r := idxErase s.index key
    let unc := s.writer.uncompacted + (match r.2 with | some o => o.len | none => 0)
    ({ s with disk := diskAppend s.disk g cmd
              index := r.1
              writer := { s.writer with uncompacted := unc } }, none)

instance {ε α : Type} [DecidableEq ε] [DecidableEq α] :
    DecidableEq (Except ε α) := fun a b =>
  match a, b with
  | .ok x, .ok y =>
    if h : x = y then .isTrue (by rw [h]) else .isFalse (by simp [h])
  | .error x, .error y =>
    if h : x = y then .isTrue (by rw [h]) else .isFalse (by simp [h])
  | .ok _, .error _ => .isFalse (by simp)
  | .error _, .ok _ => .isFalse (by simp)

/-- One engine operation of a client-visible trace. -/
inductive Op where
  | set (k v : String)
  | remove (k : String)
  | get (k : String)
deriving DecidableEq

/-- Apply one operation to the store, keeping the state reached even when
the operation reports an error (the engine object survives errors). -/
def applyOp (s : KvStore) : Op → KvStore
  | .set k v => (KvStore.set s k v).1
  | .remove k => (KvStore.remove s k).1
  | .get k => (KvStore.get s k).1

/-- Run a trace of operations from a state. -/
def runOps (s : KvStore) (ops : List Op) : KvStore := ops.foldl applyOp s

/-- The abstract map semantics of one operation. -/
def specApply (m : String → Option String) : Op → String → Option String
  | .set k v, k' => if k' = k then some v else m k'
  | .remove k, k' => if k' = k then none else m k'
  | .get _, k' => m k'

/-- The abstract map semantics of a trace. -/
def specRun (m : String → Option String) (ops : List Op) : String → Option String :=
  ops.foldl specApply m

/-- The store freshly opened on an empty directory. -/
def emptyStore : KvStore := KvStore.openStore []

/-- A directory entry as seen by fs::read_dir: its file name and whether
it is a regular file. -/
structure DirEntry where
  name : String
  isFile : Bool
deriving DecidableEq

/-- Split a character list at its last dot: the part before and after. -/
def splitLastDot : List Char → Option (List Char × List Char)
  | [] => none
  | c :: cs =>
    match splitLastDot cs with
    | some r => some (c :: r.1, r.2)
    | none => if c = '.' then some ([], cs) else none

/-- Path::extension of a file name: the part after the last dot, none when
there is no dot or when the only dot starts the name (a hidden file). -/
def rustExtension (name : String) : Option String :=
  match splitLastDot name.data with
  | some (pre, suf) => if pre = [] then none else some (String.mk suf)
  | none => none

/-- Strip repeated trailing ".log" occurrences of a reversed character
list (str::trim_end_matches works on every trailing repetition). -/
def trimLogRev : List Char → List Char
  | 'g' :: 'o' :: 'l' :: '.' :: rest => trimLogRev rest
  | l => l

/-- str::trim_end_matches applied with the pattern ".log". -/
def trimEndLog (s : String) : String :=
  String.mk (trimLogRev s.data.reverse).reverse

/-- Accumulating decimal digit parse; fails at the first non-digit. -/
def parseDigits : List Char → Nat → Option Nat
  | [], acc => some acc
  | c :: cs, acc =>
    if c.isDigit then parseDigits cs (acc * 10 + (c.toNat - 48)) else none

/-- u64::from_str: an optional leading plus sign, then one or more
decimal digits (leading zeros allowed), failing on overflow past
2^64 - 1. -/
def parseU64 (s : String) : Option Nat :=
  let l := match s.data with
    | '+' :: rest => rest
    | l => l
  match l with
  | [] => none
  | _ =>
    match parseDigits l 0 with
    | some n => if n < 2 ^ 64 then some n else none
    | none => none

/-- fn sorted_gen_list: keep the regular files whose extension is log,
parse each name with all trailing ".log" suffixes stripped as a u64
(silently dropping failures), and sort ascending. -/
def sorted_gen_list (d : List DirEntry) : List Nat :=
  let files := d.filter (fun e => e.isFile && (rustExtension e.name == some "log"))
  let gens := files.filterMap (fun e => parseU64 (trimEndLog e.name))
  List.insertionSort (· ≤ ·) gens

/-- Does a character list consist of decimal digits only? -/
def allDigits : List Char → Bool
  | [] => true
  | c :: cs => c.isDigit && allDigits cs

/-- Modelled from the claim wording for comparison: the generation of a
directory entry that is a file named exactly by a decimal u64 numeral
followed by a single ".log"; every other entry contributes nothing. -/
def claimNameGen (e : DirEntry) : Option Nat :=
  if e.isFile then
    match e.name.data.reverse with
    | 'g' :: 'o' :: 'l' :: '.' :: restRev =>
      let stem := restRev.reverse
      if allDigits stem && !stem.isEmpty &&
          (stem == ['0'] || !(stem.headD ' ' == '0')) then
        match parseDigits stem 0 with
        | some n => if n < 2 ^ 64 then some n else none
        | none => none
      else none
    | _ => none
  else none

/-- Modelled from the claim wording: the list the claim says
sorted_gen_list returns. -/
def claimGenList (d : List DirEntry) : List Nat :=
  List.insertionSort (· ≤ ·) (d.filterMap claimNameGen)

/-- A request on the wire (enum Request in src/common.rs). -/
inductive Request where
  | Set (key value : String)
  | Get (key : String)
  | Remove (key : String)
deriving DecidableEq

/-- A response on the wire (enum Response in src/common.rs). -/
inductive Response where
  | Ok (value : Option String)
  | Err (msg : String)
deriving DecidableEq

/-- Dispatch of one decoded request (the match inside handle_connection):
run the engine call on the shared store, render success as Ok (carrying
the looked-up value only for Get) and an engine error as Err of its
human-readable rendering. -/
def requestStep (s : KvStore) : Request → KvStore × Response
  | .Set k v =>
    let r := KvStore.set s k v
    (r.1, match r.2 with
          | none => .Ok none
          | some e => .Err (errString e))
  | .Get k =>
    let r := KvStore.get s k
    (r.1, match r.2 with
          | .ok v => .Ok v
          | .error e => .Err (errString e))
  | .Remove k =>
    let r := KvStore.remove s k
    (r.1, match r.2 with
          | none => .Ok none
          | some e => .Err (errString e))

/-- fn handle_connection: stream-decode requests and answer each one in
order on the same connection; engine errors are answered, not fatal.  The
argument list is the sequence of successfully decoded requests (a decode
or I/O failure terminates the loop after the responses already sent, so a
prefix of the theorems below). -/
def handle_connection (s : KvStore) : List Request → KvStore × List Response
  | [] => (s, [])
  | r :: rs =>
    let hd := requestStep s r
    let tl := handle_connection hd.1 rs
    (tl.1, hd.2 :: tl.2)

/-- The engine state after the server has dispatched a request list. -/
def serverState (s : KvStore) (reqs : List Request) : KvStore :=
  reqs.foldl (fun st r => (requestStep st r).1) s

/-- The response the engine semantics dictates for one request at one
state: Ok none for a successful Set or Remove, Ok of the engine value for
Get, and Err of the rendered engine error on failure. -/
def respMatches (s : KvStore) : Request → Response → Prop
  | .Set k v, resp =>
    (KvStore.set s k v).2 = none ∧ resp = .Ok none ∨
      ∃ e, (KvStore.set s k v).2 = some e ∧ resp = .Err (errString e)
  | .Get k, resp =>
    (∃ v, (KvStore.get s k).2 = .ok v ∧ resp = .Ok v) ∨
      ∃ e, (KvStore.get s k).2 = .error e ∧ resp = .Err (errString e)
  | .Remove k, resp =>
    (KvStore.remove s k).2 = none ∧ resp = .Ok none ∨
      ∃ e, (KvStore.remove s k).2 = some e ∧ resp = .Err (errString e)

/-- The rewritten index compaction produces: every entry keeps its key
and length but moves to the compaction generation, at consecutive
positions starting from p in iteration order. -/
def transformIdx (cgen : Nat) : Index → Nat → Index
  | [], _ => []
  | (k, cp) :: rest, p => (k, ⟨cgen, p, cp.len⟩) :: transformIdx cgen rest (p + cp.len)

/-- Append a list of records to one log file in order. -/
def appendAll (d : Disk) (g : Nat) : List Command → Disk
  | [] => d
  | c :: cs => appendAll (diskAppend d g c) g cs

/-- The records the index entries point at, in index iteration order
(skipping entries whose byte range does not decode, which cannot happen
in reachable states). -/
def decodeEntries (d : Disk) (idx : Index) : List Command :=
  idx.filterMap (fun e => recordAt ((diskGet d e.2.gen).getD []) e.2.pos e.2.len)

/-- The state invariant every store reachable from opening an empty
directory maintains, relative to the abstract key-value map M:
the directory is kept in strictly ascending generation order, the active
generation exists on disk and is maximal, the writer's auxiliary reader
map covers exactly the on-disk generations, the index has no duplicate
keys, every index entry points at a Set record of its own key carrying
the abstract value, keys absent from the index are absent from M, raw
replay of the directory reproduces the index, and the stale counter never
exceeds the bytes not reachable from the index. -/
structure StoreInv (s : KvStore) (M : String → Option String) : Prop where
  sorted_keys : (s.disk.map Prod.fst).Sorted (· < ·)
  active_mem : s.writer.current_gen ∈ s.disk.map Prod.fst
  active_max : ∀ g ∈ s.disk.map Prod.fst, g ≤ s.writer.current_gen
  readers_iff : ∀ g, g ∈ s.writer.readers ↔ g ∈ s.disk.map Prod.fst
  keys_nodup : (s.index.map Prod.fst).Nodup
  consistent : ∀ k cp, idxLookup s.index k = some cp →
    ∃ seg v, diskGet s.disk cp.gen = some seg ∧
      recordAt seg cp.pos cp.len = some (Command.set k v) ∧ M k = some v
  absent : ∀ k, idxLookup s.index k = none → M k = none
  replay_idx : ∀ k, idxLookup (replayRaw s.disk).1 k = idxLookup s.index k
  unc_live : s.writer.uncompacted + liveBytes s.index ≤ diskBytes s.disk

/-! ### Lemmas about the index -/

theorem idxLookup_insert (idx : Index) (k : String) (cp : CommandPos) (k' : String) :
    idxLookup (idxInsert idx k cp).1 k' =
      if k' = k then some cp else idxLookup idx k' := by
  induction idx with
  | nil =>
    by_cases h : k' = k <;> simp [idxInsert, idxLookup, h]
  | cons e rest ih =>
    obtain ⟨k0, cp0⟩ := e
    by_cases h : k = k0
    · subst h
      by_cases h' : k' = k <;> simp [idxInsert, idxLookup, h']
    · by_cases h' : k' = k0
      · subst h'
        simp [idxInsert, idxLookup, h, Ne.symm h, ih]
      · simp [idxInsert, idxLookup, h, h', ih]

theorem idxInsert_snd (idx : Index) (k : String) (cp : CommandPos) :
    (idxInsert idx k cp).2 = idxLookup idx k := by
  induction idx with
  | nil => simp [idxInsert, idxLookup]
  | cons e rest ih =>
    obtain ⟨k0, cp0⟩ := e
    by_cases h : k = k0 <;> simp [idxInsert, idxLookup, h, ih]

theorem idxLookup_eq_none_of_not_mem (idx : Index) (k : String)
    (h : k ∉ idx.map Prod.fst) : idxLookup idx k = none := by
  induction idx with
  | nil => simp [idxLookup]
  | cons e rest ih =>
    obtain ⟨k0, cp0⟩ := e
    simp only [List.map_cons, List.mem_cons, not_or] at h
    simp [idxLookup, h.1, ih h.2]

theorem idxLookup_erase (idx : Index) (k : String) (k' : String)
    (hnd : (idx.map Prod.fst).Nodup) :
    idxLookup (idxErase idx k).1 k' =
      if k' = k then none else idxLookup idx k' := by
  induction idx with
  | nil =>
    by_cases h : k' = k <;> simp [idxErase, idxLookup, h]
  | cons e rest ih =>
    obtain ⟨k0, cp0⟩ := e
    simp only [List.map_cons, List.nodup_cons] at hnd
    by_cases h : k = k0
    · subst h
      by_cases h' : k' = k
      · subst h'
        simp [idxErase, idxLookup, idxLookup_eq_none_of_not_mem rest k' hnd.1]
      · simp [idxErase, idxLookup, h', Ne.symm (fun he => h' he.symm)]
    · by_cases h' : k' = k0
      · subst h'
        simp [idxErase, idxLookup, h, Ne.symm h, ih hnd.2]
      · simp [idxErase, idxLookup, h, h', ih hnd.2]

theorem idxErase_snd (idx : Index) (k : String) :
    (idxErase idx k).2 = idxLookup idx k := by
  induction idx with
  | nil => simp [idxErase, idxLookup]
  | cons e rest ih =>
    obtain ⟨k0, cp0⟩ := e
    by_cases h : k = k0 <;> simp [idxErase, idxLookup, h, ih]

theorem idxErase_of_none (idx : Index) (k : String)
    (h : idxLookup idx k = none) : (idxErase idx k).1 = idx := by
  induction idx with
  | nil => simp [idxErase]
  | cons e rest ih =>
    obtain ⟨k0, cp0⟩ := e
    by_cases hk : k = k0
    · subst hk; simp [idxLookup] at h
    · simp only [idxLookup, if_neg hk] at h
      simp [idxErase, hk, ih h]

theorem idxInsert_of_none (idx : Index) (k : String) (cp : CommandPos)
    (h : idxLookup idx k = none) : (idxInsert idx k cp).1 = idx ++ [(k, cp)] := by
  induction idx with
  | nil => simp [idxInsert]
  | cons e rest ih =>
    obtain ⟨k0, cp0⟩ := e
    by_cases hk : k = k0
    · subst hk; simp [idxLookup] at h
    · simp only [idxLookup, if_neg hk] at h
      simp [idxInsert, hk, ih h]

theorem mem_of_idxLookup (idx : Index) (k : String) (cp : CommandPos)
    (h : idxLookup idx k = some cp) : (k, cp) ∈ idx := by
  induction idx with
  | nil => simp [idxLookup] at h
  | cons e rest ih =>
    obtain ⟨k0, cp0⟩ := e
    by_cases hk : k = k0
    · subst hk
      simp only [idxLookup, if_pos rfl] at h
      cases h
      exact List.mem_cons_self _ _
    · simp only [idxLookup, if_neg hk] at h
      exact List.mem_cons_of_mem _ (ih h)

theorem idxLookup_of_mem (idx : Index) (k : String) (cp : CommandPos)
    (hnd : (idx.map Prod.fst).Nodup) (h : (k, cp) ∈ idx) :
    idxLookup idx k = some cp := by
  induction idx with
  | nil => simp at h
  | cons e rest ih =>
    obtain ⟨k0, cp0⟩ := e
    simp only [List.map_cons, List.nodup_cons] at hnd
    rcases List.mem_cons.mp h with h1 | h1
    · obtain ⟨rfl, rfl⟩ := Prod.mk.injEq .. ▸ h1
      injection h1 with h1a h1b
      simp [idxLookup]
    · have hk : k ≠ k0 := by
        rintro rfl
        exact hnd.1 (List.mem_map.mpr ⟨(k, cp), h1, rfl⟩)
      simp [idxLookup, hk, ih hnd.2 h1]

theorem keys_idxInsert_of_some (idx : Index) (k : String) (cp : CommandPos)
    (h : (idxLookup idx k).isSome) :
    (idxInsert idx k cp).1.map Prod.fst = idx.map Prod.fst := by
  induction idx with
  | nil => simp [idxLookup] at h
  | cons e rest ih =>
    obtain ⟨k0, cp0⟩ := e
    by_cases hk : k = k0
    · subst hk; simp [idxInsert]
    · simp only [idxLookup, if_neg hk] at h
      simp [idxInsert, hk, ih h]

theorem idxLookup_isSome_of_mem (idx : Index) (k : String)
    (h : k ∈ idx.map Prod.fst) : (idxLookup idx k).isSome := by
  induction idx with
  | nil => simp at h
  | cons e rest ih =>
    obtain ⟨k0, cp0⟩ := e
    by_cases hk : k = k0
    · subst hk; simp [idxLookup]
    · simp only [List.map_cons, List.mem_cons] at h
      rcases h with h | h

      · exact absurd h hk
      · simp [idxLookup, hk, ih h]

theorem keys_idxInsert_nodup (idx : Index) (k : String) (cp : CommandPos)
    (hnd : (idx.map Prod.fst).Nodup) :
    ((idxInsert idx k cp).1.map Prod.fst).Nodup := by
  cases h : idxLookup idx k with
  | some cp0 => rw [keys_idxInsert_of_some idx k cp (by simp [h])]; exact hnd
  | none =>
    rw [idxInsert_of_none idx k cp h]
    simp only [List.map_append, List.map_cons, List.map_nil]
    rw [List.nodup_append]
    refine ⟨hnd, List.nodup_singleton k, ?_⟩
    intro a ha
    simp only [List.mem_singleton]
    rintro rfl
    have := idxLookup_isSome_of_mem idx a ha
    rw [h] at this
    exact absurd this (by simp)

theorem keys_idxErase_sublist (idx : Index) (k : String) :
    ((idxErase idx k).1.map Prod.fst).Sublist (idx.map Prod.fst) := by
  induction idx with
  | nil => simp [idxErase]
  | cons e rest ih =>
    obtain ⟨k0, cp0⟩ := e
    by_cases hk : k = k0
    · subst hk
      simp only [idxErase, if_pos rfl]
      exact (List.sublist_cons_self _ _)
    · simp only [idxErase, if_neg hk, List.map_cons]
      exact ih.cons₂ _

theorem keys_idxErase_nodup (idx : Index) (k : String)
    (hnd : (idx.map Prod.fst).Nodup) :
    ((idxErase idx k).1.map Prod.fst).Nodup :=
  (keys_idxErase_sublist idx k).nodup hnd

theorem liveBytes_idxInsert_none (idx : Index) (k : String) (cp : CommandPos)
    (h : idxLookup idx k = none) :
    liveBytes (idxInsert idx k cp).1 = liveBytes idx + cp.len := by
  rw [idxInsert_of_none idx k cp h]
  simp [liveBytes]

theorem liveBytes_idxInsert_some (idx : Index) (k : String) (cp o : CommandPos)
    (h : idxLookup idx k = some o) :
    liveBytes (idxInsert idx k cp).1 + o.len = liveBytes idx + cp.len := by
  induction idx with
  | nil => simp [idxLookup] at h
  | cons e rest ih =>
    obtain ⟨k0, cp0⟩ := e
    by_cases hk : k = k0
    · subst hk
      simp only [idxLookup, if_pos rfl] at h
      cases h
      simp [idxInsert, liveBytes]
      ring
    · simp only [idxLookup, if_neg hk] at h
      simp only [idxInsert, if_neg hk, liveBytes, List.map_cons, List.sum_cons]
      have := ih h
      simp only [liveBytes] at this
      omega

theorem liveBytes_idxErase_some (idx : Index) (k : String) (o : CommandPos)
    (h : idxLookup idx k = some o) :
    liveBytes (idxErase idx k).1 + o.len = liveBytes idx := by
  induction idx with
  | nil => simp [idxLookup] at h
  | cons e rest ih =>
    obtain ⟨k0, cp0⟩ := e
    by_cases hk : k = k0
    · subst hk
      simp only [idxLookup, if_pos rfl] at h
      cases h
      simp [idxErase, liveBytes]
      ring
    · simp only [idxLookup, if_neg hk] at h
      simp only [idxErase, if_neg hk, liveBytes, List.map_cons, List.sum_cons]
      have := ih h
      simp only [liveBytes] at this
      omega

/-! ### Lemmas about the directory -/

theorem keys_diskAppend (d : Disk) (g : Nat) (c : Command) :
    (diskAppend d g c).map Prod.fst = d.map Prod.fst := by
  induction d with
  | nil => rfl
  | cons e rest ih =>
    by_cases h : e.1 = g <;> simp [diskAppend, h] <;>
      simpa [diskAppend] using ih

theorem diskGet_diskAppend_ne (d : Disk) (g : Nat) (c : Command) (g' : Nat)
    (h : g' ≠ g) : diskGet (diskAppend d g c) g' = diskGet d g' := by
  induction d with
  | nil => rfl
  | cons e rest ih =>
    obtain ⟨g0, seg0⟩ := e
    by_cases hg : g0 = g
    · subst hg
      simp only [diskAppend, List.map_cons, if_pos rfl]
      simp only [diskGet, if_neg h]
      simpa [diskAppend] using ih
    · simp only [diskAppend, List.map_cons, if_neg hg]
      by_cases hg' : g' = g0
      · simp [diskGet, hg']
      · simp only [diskGet, if_neg hg']
        simpa [diskAppend] using ih

theorem diskGet_diskAppend_self (d : Disk) (g : Nat) (c : Command) (seg : Segment)
    (h : diskGet d g = some seg) :
    diskGet (diskAppend d g c) g = some (seg ++ [c]) := by
  induction d with
  | nil => simp [diskGet] at h
  | cons e rest ih =>
    obtain ⟨g0, seg0⟩ := e
    by_cases hg : g = g0
    · subst hg
      simp only [diskGet, if_pos rfl] at h
      cases h
      simp only [diskAppend, List.map_cons, if_pos rfl]
      simp [diskGet]
    · simp only [diskGet, if_neg hg] at h
      simp only [diskAppend, List.map_cons]
      by_cases hg0 : g0 = g
      · exact absurd hg0.symm hg
      · simp only [if_neg hg0]
        simp only [diskGet, if_neg hg]
        simpa [diskAppend] using ih h

theorem diskAppend_of_not_mem (d : Disk) (g : Nat) (c : Command)
    (h : g ∉ d.map Prod.fst) : diskAppend d g c = d := by
  induction d with
  | nil => rfl
  | cons e rest ih =>
    simp only [List.map_cons, List.mem_cons, not_or] at h
    have : e.1 ≠ g := fun he => h.1 he.symm
    simp [diskAppend, this]
    simpa [diskAppend] using ih h.2

theorem diskAppend_cons (g0 : Nat) (seg0 : Segment) (rest : Disk)
    (g : Nat) (c : Command) :
    diskAppend ((g0, seg0) :: rest) g c =
      (if g0 = g then (g0, seg0 ++ [c]) else (g0, seg0)) :: diskAppend rest g c := by
  by_cases h : g0 = g <;> simp [diskAppend, h]

theorem diskBytes_diskAppend (d : Disk) (g : Nat) (c : Command)
    (hnd : (d.map Prod.fst).Nodup) (hmem : g ∈ d.map Prod.fst) :
    diskBytes (diskAppend d g c) = diskBytes d + encLen c := by
  induction d with
  | nil => simp at hmem
  | cons e rest ih =>
    obtain ⟨g0, seg0⟩ := e
    simp only [List.map_cons, List.nodup_cons] at hnd
    by_cases hg : g0 = g
    · subst hg
      rw [diskAppend_cons, if_pos rfl, diskAppend_of_not_mem rest g0 c hnd.1]
      simp [diskBytes, segBytes]
      ring
    · simp only [List.map_cons, List.mem_cons] at hmem
      rcases hmem with hmem | hmem
      · exact absurd hmem.symm hg
      · rw [diskAppend_cons, if_neg hg]
        have := ih hnd.2 hmem
        simp only [diskBytes, List.map_cons, List.sum_cons] at this ⊢
        omega

theorem diskGet_mem (d : Disk) (g : Nat) (hmem : g ∈ d.map Prod.fst) :
    ∃ seg, diskGet d g = some seg := by
  induction d with
  | nil => simp at hmem
  | cons e rest ih =>
    obtain ⟨g0, seg0⟩ := e
    by_cases hg : g = g0
    · exact ⟨seg0, by simp [diskGet, hg]⟩
    · simp only [List.map_cons, List.mem_cons] at hmem
      rcases hmem with hmem | hmem
      · exact absurd hmem hg
      · obtain ⟨seg, hseg⟩ := ih hmem
        exact ⟨seg, by simp [diskGet, hg, hseg]⟩

theorem mem_of_diskGet (d : Disk) (g : Nat) (seg : Segment)
    (h : diskGet d g = some seg) : g ∈ d.map Prod.fst := by
  induction d with
  | nil => simp [diskGet] at h
  | cons e rest ih =>
    obtain ⟨g0, seg0⟩ := e
    by_cases hg : g = g0
    · simp [hg]
    · simp only [diskGet, if_neg hg] at h
      simp [List.mem_cons, ih h]

theorem diskCreate_of_forall_lt (d : Disk) (g : Nat)
    (h : ∀ g' ∈ d.map Prod.fst, g' < g) : diskCreate d g = d ++ [(g, [])] := by
  induction d with
  | nil => rfl
  | cons e rest ih =>
    obtain ⟨g0, seg0⟩ := e
    have hg0 : g0 < g := h g0 (by simp)
    rw [diskCreate, if_neg (by omega), if_neg (by omega)]
    rw [ih (fun g' hg' => h g' (by simp [hg']))]
    simp

/-- A directory with strictly sorted generations, containing the maximal
generation g, decomposes as a prefix not containing g followed by the
entry of g at the very end. -/
theorem disk_max_decomp (d : Disk) (g : Nat)
    (hs : (d.map Prod.fst).Sorted (· < ·))
    (hmem : g ∈ d.map Prod.fst)
    (hmax : ∀ g' ∈ d.map Prod.fst, g' ≤ g) :
    ∃ d0 seg, d = d0 ++ [(g, seg)] ∧ g ∉ d0.map Prod.fst := by
  induction d with
  | nil => simp at hmem
  | cons e rest ih =>
    obtain ⟨g0, seg0⟩ := e
    simp only [List.map_cons, List.sorted_cons] at hs
    rcases rest with _ | ⟨y, ys⟩
    · simp only [List.map_cons, List.map_nil, List.mem_cons, List.not_mem_nil,
        or_false] at hmem
      subst hmem
      exact ⟨[], seg0, by simp, by simp⟩
    · by_cases hgg : g0 = g
      · subst hgg
        exfalso
        have h1 := hs.1 y.1 (by simp)
        have h2 := hmax y.1 (by simp)
        omega
      · have hmem' : g ∈ (y :: ys).map Prod.fst := by
          simp only [List.map_cons, List.mem_cons] at hmem
          rcases hmem with h | h
          · exact absurd h.symm hgg
          · simpa using h
        obtain ⟨d0, seg, hd, hnmem⟩ := ih hs.2 hmem'
          (fun g' hg' => hmax g' (by
            simp only [List.map_cons, List.mem_cons] at hg' ⊢
            tauto))
        refine ⟨(g0, seg0) :: d0, seg, by simp [hd], ?_⟩
        simp only [List.map_cons, List.mem_cons, not_or]
        exact ⟨fun he => hgg he.symm, hnmem⟩

/-! ### Lemmas about records and replay -/

theorem encLen_pos (c : Command) : 0 < encLen c := by
  cases c <;> simp [encLen, jsonStrLen]

theorem recordAt_append_of_some (xs ys : Segment) (p l : Nat) (c : Command)
    (h : recordAt xs p l = some c) : recordAt (xs ++ ys) p l = some c := by
  induction xs generalizing p with
  | nil => simp [recordAt] at h
  | cons x rest ih =>
    by_cases hp : p = 0
    · subst hp
      simp only [recordAt, if_pos rfl] at h ⊢
      exact h
    · simp only [recordAt, if_neg hp] at h ⊢
      by_cases hlt : p < encLen x
      · simp [if_pos hlt] at h
      · simp only [if_neg hlt] at h ⊢
        exact ih _ h

theorem recordAt_prefix (xs ys : Segment) (c : Command) (p : Nat)
    (h : segBytes xs = p) : recordAt (xs ++ c :: ys) p (encLen c) = some c := by
  induction xs generalizing p with
  | nil =>
    simp only [segBytes, List.map_nil, List.sum_nil] at h
    subst h
    simp [recordAt]
  | cons x rest ih =>
    simp only [segBytes, List.map_cons, List.sum_cons] at h
    have hx := encLen_pos x
    have hp : p ≠ 0 := by omega
    simp only [List.cons_append, recordAt, if_neg hp, if_neg (by omega : ¬ p < encLen x)]
    exact ih (p - encLen x) (by simp only [segBytes] at h ⊢; omega)

theorem recordAt_len (xs : Segment) (p l : Nat) (c : Command)
    (h : recordAt xs p l = some c) : encLen c = l := by
  induction xs generalizing p with
  | nil => simp [recordAt] at h
  | cons x rest ih =>
    by_cases hp : p = 0
    · subst hp
      simp only [recordAt, if_pos rfl] at h
      by_cases he : encLen x = l
      · simp only [if_pos he] at h
        cases h
        exact he
      · simp [if_neg he] at h
    · simp only [recordAt, if_neg hp] at h
      by_cases hlt : p < encLen x
      · simp [if_pos hlt] at h
      · simp only [if_neg hlt] at h
        exact ih _ h

theorem loadFold_pos (g : Nat) (seg : Segment) (p : Nat) (idx : Index) (u : Nat) :
    (seg.foldl (loadStep g) (p, idx, u)).1 = p + segBytes seg := by
  induction seg generalizing p idx u with
  | nil => simp [segBytes]
  | cons c rest ih =>
    cases c with
    | set k v =>
      simp only [List.foldl_cons, loadStep]
      rw [ih]
      simp only [segBytes, List.map_cons, List.sum_cons]
      omega
    | remove k =>
      simp only [List.foldl_cons, loadStep]
      rw [ih]
      simp only [segBytes, List.map_cons, List.sum_cons]
      omega

theorem loadFold_unc_live (g : Nat) (seg : Segment) (p : Nat) (idx : Index) (u : Nat) :
    (seg.foldl (loadStep g) (p, idx, u)).2.2 +
        liveBytes (seg.foldl (loadStep g) (p, idx, u)).2.1 =
      u + liveBytes idx + segBytes seg := by
  induction seg generalizing p idx u with
  | nil => simp [segBytes]
  | cons c rest ih =>
    cases c with
    | set k v =>
      simp only [List.foldl_cons, loadStep]
      rw [ih]
      cases h : idxLookup idx k with
      | none =>
        rw [idxInsert_snd, h]
        rw [liveBytes_idxInsert_none idx k _ h]
        simp only [segBytes, List.map_cons, List.sum_cons]
        omega
      | some o =>
        rw [idxInsert_snd, h]
        have := liveBytes_idxInsert_some idx k ⟨g, p, encLen (Command.set k v)⟩ o h
        simp only [segBytes, List.map_cons, List.sum_cons]
        simp at this
        omega
    | remove k =>
      simp only [List.foldl_cons, loadStep]
      rw [ih]
      cases h : idxLookup idx k with
      | none =>
        rw [idxErase_snd, h, idxErase_of_none idx k h]
        simp only [segBytes, List.map_cons, List.sum_cons]
        omega
      | some o =>
        rw [idxErase_snd, h]
        have := liveBytes_idxErase_some idx k o h
        simp only [segBytes, List.map_cons, List.sum_cons]
        omega

/-- The uncompacted bytes a single file replay reports, plus the live
bytes afterwards, account exactly for the previous live bytes plus the
file's size. -/
theorem load_unc_live (g : Nat) (seg : Segment) (idx : Index) :
    (load g seg idx).2 + liveBytes (load g seg idx).1 =
      liveBytes idx + segBytes seg := by
  have := loadFold_unc_live g seg 0 idx 0
  simpa [load] using this

theorem load_append_set (g : Nat) (seg : Segment) (idx : Index) (k v : String) :
    load g (seg ++ [Command.set k v]) idx =
      ((idxInsert (load g seg idx).1 k
          ⟨g, segBytes seg, encLen (Command.set k v)⟩).1,
        (load g seg idx).2 +
          (match idxLookup (load g seg idx).1 k with
            | some o => o.len
            | none => 0)) := by
  rcases hr : seg.foldl (loadStep g) (0, idx, 0) with ⟨p, idx', u⟩
  have hp : p = segBytes seg := by
    have := loadFold_pos g seg 0 idx 0
    rw [hr] at this
    simpa using this
  subst hp
  simp only [load, List.foldl_append, List.foldl_cons, List.foldl_nil, hr,
    loadStep, idxInsert_snd]

theorem load_append_remove (g : Nat) (seg : Segment) (idx : Index) (k : String) :
    load g (seg ++ [Command.remove k]) idx =
      ((idxErase (load g seg idx).1 k).1,
        (load g seg idx).2 +
          (match idxLookup (load g seg idx).1 k with
            | some o => o.len
            | none => 0) + encLen (Command.remove k)) := by
  rcases hr : seg.foldl (loadStep g) (0, idx, 0) with ⟨p, idx', u⟩
  simp only [load, List.foldl_append, List.foldl_cons, List.foldl_nil, hr,
    loadStep, idxErase_snd]

theorem replayRaw_snoc (d0 : Disk) (g : Nat) (seg : Segment) :
    replayRaw (d0 ++ [(g, seg)]) =
      ((load g seg (replayRaw d0).1).1,
        (replayRaw d0).2 + (load g seg (replayRaw d0).1).2) := by
  simp only [replayRaw, List.foldl_append, List.foldl_cons, List.foldl_nil]

theorem replayFold_unc_live (d : Disk) (acc : Index × Nat) :
    (d.foldl (fun acc e =>
        let r := load e.1 e.2 acc.1
        (r.1, acc.2 + r.2)) acc).2 +
      liveBytes (d.foldl (fun acc e =>
        let r := load e.1 e.2 acc.1
        (r.1, acc.2 + r.2)) acc).1 =
    acc.2 + liveBytes acc.1 + diskBytes d := by
  induction d generalizing acc with
  | nil => simp [diskBytes]
  | cons e rest ih =>
    obtain ⟨g, seg⟩ := e
    simp only [List.foldl_cons]
    rw [ih]
    have := load_unc_live g seg acc.1
    simp only [diskBytes, List.map_cons, List.sum_cons]
    omega

/-- Replay of a whole directory accounts for every byte: the uncompacted
counter plus the live bytes equal the total file bytes. -/
theorem replayRaw_unc_live (d : Disk) :
    (replayRaw d).2 + liveBytes (replayRaw d).1 = diskBytes d := by
  have := replayFold_unc_live d ([], 0)
  simpa [replayRaw, liveBytes] using this

theorem replayGens_congr (d d' : Disk) (gs : List Nat) (acc : Index × Nat)
    (h : ∀ g ∈ gs, diskGet d g = diskGet d' g) :
    replayGens d gs acc = replayGens d' gs acc := by
  induction gs generalizing acc with
  | nil => rfl
  | cons g rest ih =>
    obtain ⟨idx, unc⟩ := acc
    simp only [replayGens]
    rw [h g (by simp)]
    exact ih _ (fun g' hg' => h g' (by simp [hg']))

theorem replayGens_eq_fold (d : Disk) (acc : Index × Nat)
    (hnd : (d.map Prod.fst).Nodup) :
    replayGens d (d.map Prod.fst) acc =
      d.foldl (fun acc e =>
        let r := load e.1 e.2 acc.1
        (r.1, acc.2 + r.2)) acc := by
  induction d generalizing acc with
  | nil => rfl
  | cons e rest ih =>
    obtain ⟨g, seg⟩ := e
    obtain ⟨idx, unc⟩ := acc
    simp only [List.map_cons, List.nodup_cons] at hnd
    simp only [List.map_cons, replayGens, List.foldl_cons]
    rw [diskGet, if_pos rfl]
    simp only [Option.getD_some]
    rw [replayGens_congr ((g, seg) :: rest) rest (rest.map Prod.fst) _
      (fun g' hg' => by
        have hne : g' ≠ g := fun he => hnd.1 (he ▸ hg')
        rw [diskGet, if_neg hne])]
    exact ih _ hnd.2

/-- On a directory whose stored order is already strictly ascending (the
canonical representation every reachable state keeps), opening resolves
to the raw replay of the stored order. -/
theorem openStore_eq_of_sorted (d : Disk)
    (hs : (d.map Prod.fst).Sorted (· < ·)) :
    KvStore.openStore d =
      { disk := diskCreate d ((d.map Prod.fst).getLast?.getD 0 + 1)
        index := (replayRaw d).1
        writer := { current_gen := (d.map Prod.fst).getLast?.getD 0 + 1
                    readers := d.map Prod.fst ++
                      [(d.map Prod.fst).getLast?.getD 0 + 1]
                    uncompacted := (replayRaw d).2 }
        safe_point := 0
        reader_cache := [] } := by
  have hle : (d.map Prod.fst).Sorted (· ≤ ·) :=
    hs.imp (fun h => Nat.le_of_lt h)
  have hsort : List.insertionSort (· ≤ ·) (d.map Prod.fst) = d.map Prod.fst :=
    hle.insertionSort_eq
  have hnd : (d.map Prod.fst).Nodup := hs.nodup
  simp only [KvStore.openStore, hsort]
  rw [replayGens_eq_fold d ([], 0) hnd]
  rfl

theorem idxLookup_none_iff (idx : Index) (k : String) :
    idxLookup idx k = none ↔ k ∉ idx.map Prod.fst := by
  constructor
  · intro h hmem
    have := idxLookup_isSome_of_mem idx k hmem
    rw [h] at this
    exact absurd this (by simp)
  · exact idxLookup_eq_none_of_not_mem idx k

theorem idxLookup_append (a b : Index) (k : String) :
    idxLookup (a ++ b) k =
      match idxLookup a k with
      | some cp => some cp
      | none => idxLookup b k := by
  induction a with
  | nil => simp [idxLookup]
  | cons e rest ih =>
    obtain ⟨k0, cp0⟩ := e
    by_cases hk : k = k0 <;> simp [idxLookup, hk, ih]

theorem diskGet_append (a b : Disk) (g : Nat) :
    diskGet (a ++ b) g =
      match diskGet a g with
      | some seg => some seg
      | none => diskGet b g := by
  induction a with
  | nil => simp [diskGet]
  | cons e rest ih =>
    obtain ⟨g0, seg0⟩ := e
    by_cases hg : g = g0 <;> simp [diskGet, hg, ih]

theorem diskGet_eq_none_of_not_mem (d : Disk) (g : Nat)
    (h : g ∉ d.map Prod.fst) : diskGet d g = none := by
  cases hd : diskGet d g with
  | none => rfl
  | some seg => exact absurd (mem_of_diskGet d g seg hd) h

theorem diskCreate_append_mid (a : Disk) (m : Nat) (seg : Segment) (n : Nat)
    (ha : ∀ g' ∈ a.map Prod.fst, g' < n) (hnm : n < m) :
    diskCreate (a ++ [(m, seg)]) n = a ++ [(n, []), (m, seg)] := by
  induction a with
  | nil => simp [diskCreate, hnm]
  | cons e rest ih =>
    obtain ⟨g0, seg0⟩ := e
    have hg0 : g0 < n := ha g0 (by simp)
    simp only [List.cons_append, diskCreate, if_neg (by omega : ¬ n < g0),
      if_neg (by omega : ¬ n = g0), List.append_eq]
    rw [ih (fun g' hg' => ha g' (by simp [hg']))]

theorem diskAppend_append (a b : Disk) (g : Nat) (c : Command) :
    diskAppend (a ++ b) g c = diskAppend a g c ++ diskAppend b g c := by
  simp [diskAppend]

theorem diskAppend_decomp (a b : Disk) (n : Nat) (acc : Segment) (c : Command)
    (hna : n ∉ a.map Prod.fst) (hnb : n ∉ b.map Prod.fst) :
    diskAppend (a ++ (n, acc) :: b) n c = a ++ (n, acc ++ [c]) :: b := by
  rw [show a ++ (n, acc) :: b = a ++ [(n, acc)] ++ b by simp]
  rw [diskAppend_append, diskAppend_append, diskAppend_of_not_mem a n c hna,
    diskAppend_of_not_mem b n c hnb]
  simp [diskAppend]

theorem appendAll_decomp (cs : List Command) (a b : Disk) (n : Nat) (acc : Segment)
    (hna : n ∉ a.map Prod.fst) (hnb : n ∉ b.map Prod.fst) :
    appendAll (a ++ (n, acc) :: b) n cs = a ++ (n, acc ++ cs) :: b := by
  induction cs generalizing acc with
  | nil => simp [appendAll]
  | cons c rest ih =>
    simp only [appendAll]
    rw [diskAppend_decomp a b n acc c hna hnb, ih (acc ++ [c])]
    simp

theorem transformIdx_keys (cgen : Nat) (idx : Index) (p : Nat) :
    (transformIdx cgen idx p).map Prod.fst = idx.map Prod.fst := by
  induction idx generalizing p with
  | nil => rfl
  | cons e rest ih =>
    obtain ⟨k, cp⟩ := e
    simp [transformIdx, ih]

theorem transformIdx_live (cgen : Nat) (idx : Index) (p : Nat) :
    liveBytes (transformIdx cgen idx p) = liveBytes idx := by
  induction idx generalizing p with
  | nil => rfl
  | cons e rest ih =>
    obtain ⟨k, cp⟩ := e
    simp [transformIdx, liveBytes, ih]
    simp [liveBytes] at ih
    exact ih _

theorem decodeEntries_cons (d : Disk) (e : String × CommandPos) (rest : Index)
    (c : Command)
    (h : recordAt ((diskGet d e.2.gen).getD []) e.2.pos e.2.len = some c) :
    decodeEntries d (e :: rest) = c :: decodeEntries d rest := by
  simp [decodeEntries, h]

theorem decodeEntries_congr (d d' : Disk) (idx : Index)
    (h : ∀ e ∈ idx, diskGet d e.2.gen = diskGet d' e.2.gen) :
    decodeEntries d idx = decodeEntries d' idx := by
  induction idx with
  | nil => rfl
  | cons e rest ih =>
    simp only [decodeEntries, List.filterMap_cons]
    rw [h e (by simp)]
    have := ih (fun e' he' => h e' (by simp [he']))
    simp only [decodeEntries] at this
    rw [this]

theorem transformIdx_consistent (cgen : Nat) (M : String → Option String)
    (d : Disk) (idx : Index) (acc : Segment) (p : Nat)
    (hacc : segBytes acc = p)
    (H : ∀ e ∈ idx, ∃ v,
      recordAt ((diskGet d e.2.gen).getD []) e.2.pos e.2.len =
        some (Command.set e.1 v) ∧ M e.1 = some v ∧
        encLen (Command.set e.1 v) = e.2.len) :
    ∀ k cp', idxLookup (transformIdx cgen idx p) k = some cp' →
      cp'.gen = cgen ∧ ∃ v,
        recordAt (acc ++ decodeEntries d idx) cp'.pos cp'.len =
          some (Command.set k v) ∧ M k = some v := by
  induction idx generalizing acc p with
  | nil => intro k cp' h; simp [transformIdx, idxLookup] at h
  | cons e rest ih =>
    obtain ⟨k0, cp0⟩ := e
    obtain ⟨v0, hrec0, hM0, hlen0⟩ := H (k0, cp0) (by simp)
    intro k cp' hl
    rw [decodeEntries_cons d (k0, cp0) rest _ hrec0]
    by_cases hk : k = k0
    · subst hk
      simp only [transformIdx, idxLookup, if_pos rfl] at hl
      cases hl
      refine ⟨rfl, v0, ?_, hM0⟩
      have := recordAt_prefix acc (decodeEntries d rest) (Command.set k v0) p hacc
      simpa [hlen0] using this
    · simp only [transformIdx, idxLookup, if_neg hk] at hl
      have hrec := ih (acc ++ [Command.set k0 v0]) (p + cp0.len)
        (by
          have hl0 : encLen (Command.set k0 v0) = cp0.len := by simpa using hlen0
          simp [segBytes, hl0] at hacc ⊢
          omega)
        (fun e' he' => H e' (by simp [he'])) k cp' hl
      simpa using hrec

theorem load_transform (cgen : Nat) (d : Disk) (idx : Index)
    (i0 : Index) (p u : Nat)
    (hnd : (idx.map Prod.fst).Nodup)
    (hdisj : ∀ k ∈ idx.map Prod.fst, idxLookup i0 k = none)
    (H : ∀ e ∈ idx, ∃ v,
      recordAt ((diskGet d e.2.gen).getD []) e.2.pos e.2.len =
        some (Command.set e.1 v) ∧
        encLen (Command.set e.1 v) = e.2.len) :
    (decodeEntries d idx).foldl (loadStep cgen) (p, i0, u) =
      (p + liveBytes idx, i0 ++ transformIdx cgen idx p, u) := by
  induction idx generalizing i0 p with
  | nil => simp [decodeEntries, transformIdx, liveBytes]
  | cons e rest ih =>
    obtain ⟨k0, cp0⟩ := e
    obtain ⟨v0, hrec0, hlen0⟩ := H (k0, cp0) (by simp)
    simp only [List.map_cons, List.nodup_cons] at hnd
    rw [decodeEntries_cons d (k0, cp0) rest _ hrec0]
    simp only [List.foldl_cons, loadStep]
    rw [idxInsert_of_none i0 k0 _ (hdisj k0 (by simp)), idxInsert_snd,
      hdisj k0 (by simp)]
    have hu : (u + match (none : Option CommandPos) with
        | some o => o.len
        | none => 0) = u := rfl
    rw [hu]
    have hl0 : encLen (Command.set k0 v0) = cp0.len := by simpa using hlen0
    rw [hl0]
    have hrec := ih (i0 ++ [(k0, (⟨cgen, p, cp0.len⟩ : CommandPos))]) (p + cp0.len)
      hnd.2
      (fun k hk => by
        rw [idxLookup_append]
        rw [hdisj k (by simp [hk])]
        have hne : k ≠ k0 := fun he => hnd.1 (he ▸ hk)
        simp [idxLookup, hne])
      (fun e' he' => H e' (by simp [he']))
    rw [hrec]
    simp only [transformIdx, List.append_assoc, List.cons_append, List.nil_append,
      Prod.mk.injEq, liveBytes, List.map_cons, List.sum_cons, and_true, true_and,
      eq_self_iff_true]
    omega

theorem transformIdx_lookup_gen (cgen : Nat) (idx : Index) (p : Nat)
    (k : String) (cp' : CommandPos)
    (h : idxLookup (transformIdx cgen idx p) k = some cp') : cp'.gen = cgen := by
  induction idx generalizing p with
  | nil => simp [transformIdx, idxLookup] at h
  | cons e rest ih =>
    obtain ⟨k0, cp0⟩ := e
    by_cases hk : k = k0
    · subst hk
      simp only [transformIdx, idxLookup, if_pos rfl] at h
      cases h
      rfl
    · simp only [transformIdx, idxLookup, if_neg hk] at h
      exact ih _ h

theorem compactEntries_spec (cgen : Nat) (readers : List Nat) (idx : Index)
    (d : Disk) (npos : Nat)
    (H : ∀ e ∈ idx, e.2.gen ∈ readers ∧ e.2.gen ≠ cgen ∧
      (recordAt ((diskGet d e.2.gen).getD []) e.2.pos e.2.len).isSome) :
    compactEntries cgen readers idx d npos =
      .ok (transformIdx cgen idx npos, appendAll d cgen (decodeEntries d idx),
        npos + liveBytes idx) := by
  induction idx generalizing d npos with
  | nil => simp [compactEntries, transformIdx, decodeEntries, appendAll, liveBytes]
  | cons e rest ih =>
    obtain ⟨k0, cp0⟩ := e
    obtain ⟨hr0, hne0, hsome0⟩ := H (k0, cp0) (by simp)
    obtain ⟨c0, hc0⟩ := Option.isSome_iff_exists.mp hsome0
    simp only at hc0
    rw [decodeEntries_cons d (k0, cp0) rest c0 hc0]
    simp only [compactEntries, if_pos hr0, hc0]
    have hdg : ∀ e ∈ rest, diskGet (diskAppend d cgen c0) e.2.gen = diskGet d e.2.gen :=
      fun e' he' => diskGet_diskAppend_ne d cgen c0 e'.2.gen (H e' (by simp [he'])).2.1
    have hH' : ∀ e ∈ rest, e.2.gen ∈ readers ∧ e.2.gen ≠ cgen ∧
        (recordAt ((diskGet (diskAppend d cgen c0) e.2.gen).getD [])
          e.2.pos e.2.len).isSome := by
      intro e' he'
      obtain ⟨h1, h2, h3⟩ := H e' (by simp [he'])
      exact ⟨h1, h2, by rw [hdg e' he']; exact h3⟩
    rw [ih (diskAppend d cgen c0) (npos + cp0.len) hH']
    rw [decodeEntries_congr (diskAppend d cgen c0) d rest hdg]
    simp only [appendAll, transformIdx, Except.ok.injEq, Prod.mk.injEq, liveBytes,
      List.map_cons, List.sum_cons, and_true, true_and, eq_self_iff_true]
    omega

theorem compact_ok (s : KvStore) (M : String → Option String)
    (hInv : StoreInv s M) :
    ∃ s', compact s = .ok s' ∧ StoreInv s' M ∧
      s'.writer.uncompacted = 0 ∧
      s'.writer.current_gen = s.writer.current_gen + 2 ∧
      s'.safe_point = s.writer.current_gen + 1 ∧
      s'.reader_cache = s.reader_cache ∧
      s'.index = transformIdx (s.writer.current_gen + 1) s.index 0 ∧
      s'.disk.map Prod.fst = [s.writer.current_gen + 1, s.writer.current_gen + 2] ∧
      liveBytes s'.index = liveBytes s.index := by
  set g := s.writer.current_gen with hg
  have hkeylt : ∀ g' ∈ s.disk.map Prod.fst, g' ≤ g := hInv.active_max
  -- the two fresh segment files
  have hd1a : diskCreate s.disk (g + 2) = s.disk ++ [(g + 2, [])] :=
    diskCreate_of_forall_lt s.disk (g + 2)
      (fun g' hg' => by have := hkeylt g' hg'; omega)
  have hd1 : diskCreate (diskCreate s.disk (g + 2)) (g + 1) =
      s.disk ++ [(g + 1, []), (g + 2, [])] := by
    rw [hd1a]
    exact diskCreate_append_mid s.disk (g + 2) [] (g + 1)
      (fun g' hg' => by have := hkeylt g' hg'; omega) (by omega)
  have hcgnotmem : (g + 1) ∉ s.disk.map Prod.fst :=
    fun hmem => by have := hkeylt _ hmem; omega
  have hngnotmem : (g + 2) ∉ s.disk.map Prod.fst :=
    fun hmem => by have := hkeylt _ hmem; omega
  -- per-entry facts for the copy loop
  have hperE : ∀ e ∈ s.index, ∃ v,
      recordAt ((diskGet (s.disk ++ [(g + 1, []), (g + 2, [])]) e.2.gen).getD [])
          e.2.pos e.2.len = some (Command.set e.1 v) ∧
        M e.1 = some v ∧ e.2.gen ∈ s.disk.map Prod.fst := by
    intro e he
    have hlk := idxLookup_of_mem s.index e.1 e.2 hInv.keys_nodup
      (by rcases e with ⟨k, cp⟩; exact he)
    obtain ⟨seg, v, hseg, hrec, hM⟩ := hInv.consistent e.1 e.2 hlk
    refine ⟨v, ?_, hM, mem_of_diskGet _ _ _ hseg⟩
    rw [diskGet_append, hseg]
    simpa [hseg] using hrec
  have hH : ∀ e ∈ s.index, e.2.gen ∈ (s.writer.readers ++ [g + 2, g + 1]) ∧
      e.2.gen ≠ (g + 1) ∧
      (recordAt ((diskGet (s.disk ++ [(g + 1, []), (g + 2, [])]) e.2.gen).getD [])
        e.2.pos e.2.len).isSome := by
    intro e he
    obtain ⟨v, hrec, _, hmem⟩ := hperE e he
    refine ⟨List.mem_append_left _ ((hInv.readers_iff _).mpr hmem), ?_, by simp [hrec]⟩
    have := hkeylt _ hmem
    omega
  -- run the copy loop
  have hloop := compactEntries_spec (g + 1) (s.writer.readers ++ [g + 2, g + 1])
    s.index (s.disk ++ [(g + 1, []), (g + 2, [])]) 0 hH
  set cs := decodeEntries (s.disk ++ [(g + 1, []), (g + 2, [])]) s.index with hcs
  have hd2 : appendAll (s.disk ++ [(g + 1, []), (g + 2, [])]) (g + 1) cs =
      s.disk ++ [(g + 1, cs), (g + 2, [])] := by
    have := appendAll_decomp cs s.disk [(g + 2, [])] (g + 1) []
      hcgnotmem (by simp)
    simpa using this
  -- characterize the stale generation list
  have hstale : ∀ x, (x ∈ (s.writer.readers ++ [g + 2, g + 1]).filter
      (fun g0 => decide (g0 < g + 1))) ↔ x ∈ s.disk.map Prod.fst := by
    intro x
    rw [List.mem_filter]
    simp only [List.mem_append, List.mem_cons, List.not_mem_nil, or_false,
      List.mem_singleton, decide_eq_true_eq]
    constructor
    · rintro ⟨hx1 | hx2, hlt⟩
      · exact (hInv.readers_iff x).mp hx1
      · rcases hx2 with rfl | rfl
        · omega
        · omega
    · intro hx
      exact ⟨Or.inl ((hInv.readers_iff x).mpr hx), by have := hkeylt x hx; omega⟩
  set staleL := (s.writer.readers ++ [g + 2, g + 1]).filter
    (fun g0 => decide (g0 < g + 1)) with hstaleL
  have hcgstale : (g + 1) ∉ staleL := fun hx => hcgnotmem ((hstale _).mp hx)
  have hngstale : (g + 2) ∉ staleL := fun hx => hngnotmem ((hstale _).mp hx)
  have hdiskf : (s.disk ++ [(g + 1, cs), (g + 2, [])]).filter
      (fun e => !(decide (e.1 ∈ staleL))) = [(g + 1, cs), (g + 2, [])] := by
    rw [List.filter_append]
    rw [List.filter_eq_nil_iff.mpr (fun e he => by
      simp only [Bool.not_eq_true', decide_eq_false_iff_not, Decidable.not_not]
      exact (hstale _).mpr (List.mem_map.mpr ⟨e, he, rfl⟩))]
    simp [hcgstale, hngstale]
  have hload := load_transform (g + 1) (s.disk ++ [(g + 1, []), (g + 2, [])])
    s.index [] 0 0 hInv.keys_nodup (fun k' _ => rfl)
    (fun e he => by
      obtain ⟨v, hrec, _, _⟩ := hperE e he
      exact ⟨v, hrec, recordAt_len _ _ _ _ hrec⟩)
  have hreplay : replayRaw [(g + 1, cs), (g + 2, [])] =
      (transformIdx (g + 1) s.index 0, 0) := by
    simp only [replayRaw, List.foldl_cons, List.foldl_nil, load]
    rw [hload]
    simp
  refine ⟨{ disk := [(g + 1, cs), (g + 2, [])]
            index := transformIdx (g + 1) s.index 0
            writer := { current_gen := g + 2
                        readers := (s.writer.readers ++ [g + 2, g + 1]).filter
                          (fun g0 => !(decide (g0 ∈ staleL)))
                        uncompacted := 0 }
            safe_point := g + 1
            reader_cache := s.reader_cache },
    ?_, ?_, rfl, rfl, rfl, rfl, rfl, by simp, transformIdx_live _ _ _⟩
  · simp only [compact, hg, hd1, hloop, hd2]
    rw [hdiskf]
  · constructor
    · simp [List.sorted_cons]
    · simp
    · intro g' hg'
      simp at hg' ⊢
      omega
    · intro x
      simp only [List.mem_filter, List.map_cons, List.map_nil, List.mem_cons,
        List.not_mem_nil, or_false, Bool.not_eq_true', decide_eq_false_iff_not]
      constructor
      · rintro ⟨hx1, hx2⟩
        have hxk : x ∉ s.disk.map Prod.fst := fun hk => hx2 ((hstale x).mpr hk)
        rcases List.mem_append.mp hx1 with h | h
        · exact absurd ((hInv.readers_iff x).mp h) hxk
        · simpa [or_comm] using h
      · rintro (rfl | rfl)
        · exact ⟨List.mem_append_right _ (by simp), hcgstale⟩
        · exact ⟨List.mem_append_right _ (by simp), hngstale⟩
    · rw [transformIdx_keys]
      exact hInv.keys_nodup
    · intro k cp' hlk
      have hdec : ∀ e ∈ s.index, ∃ v,
          recordAt ((diskGet (s.disk ++ [(g + 1, []), (g + 2, [])]) e.2.gen).getD [])
            e.2.pos e.2.len = some (Command.set e.1 v) ∧ M e.1 = some v ∧
          encLen (Command.set e.1 v) = e.2.len := by
        intro e he
        obtain ⟨v, hrec, hM, _⟩ := hperE e he
        exact ⟨v, hrec, hM, recordAt_len _ _ _ _ hrec⟩
      obtain ⟨hgen, v, hrec, hM⟩ := transformIdx_consistent (g + 1) M
        (s.disk ++ [(g + 1, []), (g + 2, [])]) s.index [] 0 rfl hdec k cp' hlk
      refine ⟨cs, v, ?_, ?_, hM⟩
      · rw [hgen]
        simp [diskGet]
      · simpa using hrec
    · intro k hk
      apply hInv.absent
      rw [idxLookup_none_iff] at hk ⊢
      rwa [transformIdx_keys] at hk
    · intro k
      rw [hreplay]
    · have hub := replayRaw_unc_live [(g + 1, cs), (g + 2, [])]
      rw [hreplay] at hub
      simp only at hub
      simp only [Nat.zero_add]
      omega

theorem loadFold_nodup (g : Nat) (seg : Segment) (p : Nat) (idx : Index) (u : Nat)
    (h : (idx.map Prod.fst).Nodup) :
    (((seg.foldl (loadStep g) (p, idx, u)).2.1).map Prod.fst).Nodup := by
  induction seg generalizing p idx u with
  | nil => exact h
  | cons c rest ih =>
    cases c with
    | set k v =>
      simp only [List.foldl_cons, loadStep]
      exact ih _ _ _ (keys_idxInsert_nodup idx k _ h)
    | remove k =>
      simp only [List.foldl_cons, loadStep]
      exact ih _ _ _ (keys_idxErase_nodup idx k h)

theorem replayFold_nodup (d : Disk) (acc : Index × Nat)
    (h : (acc.1.map Prod.fst).Nodup) :
    (((d.foldl (fun acc e =>
        let r := load e.1 e.2 acc.1
        (r.1, acc.2 + r.2)) acc).1).map Prod.fst).Nodup := by
  induction d generalizing acc with
  | nil => exact h
  | cons e rest ih =>
    simp only [List.foldl_cons]
    exact ih _ (loadFold_nodup e.1 e.2 0 acc.1 0 h)

theorem replayRaw_nodup (d : Disk) : (((replayRaw d).1).map Prod.fst).Nodup :=
  replayFold_nodup d ([], 0) (by simp)

/-- Transporting the invariant along equality of the shared components
(the reader cache and safe point do not appear in the invariant). -/
theorem StoreInv_of_eq (s s' : KvStore) (M : String → Option String)
    (hInv : StoreInv s M) (hd : s'.disk = s.disk) (hi : s'.index = s.index)
    (hw : s'.writer = s.writer) : StoreInv s' M := by
  constructor
  · rw [hd]; exact hInv.sorted_keys
  · rw [hd, hw]; exact hInv.active_mem
  · rw [hd, hw]; exact hInv.active_max
  · rw [hd, hw]; exact hInv.readers_iff
  · rw [hi]; exact hInv.keys_nodup
  · rw [hi, hd]; exact hInv.consistent
  · rw [hi]; exact hInv.absent
  · rw [hi, hd]; exact hInv.replay_idx
  · rw [hi, hd, hw]; exact hInv.unc_live

theorem StoreInv_setRaw (s : KvStore) (M : String → Option String) (k v : String)
    (hInv : StoreInv s M) :
    StoreInv (setRaw s k v) (fun k' => if k' = k then some v else M k') := by
  obtain ⟨d0, aseg, hdecomp, hnmem⟩ := disk_max_decomp s.disk s.writer.current_gen
    hInv.sorted_keys hInv.active_mem hInv.active_max
  have haseg : diskGet s.disk s.writer.current_gen = some aseg := by
    rw [hdecomp, diskGet_append, diskGet_eq_none_of_not_mem d0 _ hnmem]
    simp [diskGet]
  have hkeysnd : (s.disk.map Prod.fst).Nodup := hInv.sorted_keys.nodup
  set g := s.writer.current_gen with hgdef
  set cmd := Command.set k v with hcmd
  have hset : setRaw s k v =
      { s with disk := diskAppend s.disk g cmd
               index := (idxInsert s.index k ⟨g, segBytes aseg, encLen cmd⟩).1
               writer := { s.writer with uncompacted := s.writer.uncompacted +
                 (match (idxInsert s.index k ⟨g, segBytes aseg, encLen cmd⟩).2 with
                   | some o => o.len
                   | none => 0) } } := by
    simp only [setRaw, haseg, Option.getD_some]
  rw [hset]
  constructor
  · rw [keys_diskAppend]; exact hInv.sorted_keys
  · rw [keys_diskAppend]; exact hInv.active_mem
  · rw [keys_diskAppend]; exact hInv.active_max
  · rw [keys_diskAppend]; exact hInv.readers_iff
  · exact keys_idxInsert_nodup s.index k _ hInv.keys_nodup
  · intro k' cp' hlk
    rw [idxLookup_insert] at hlk
    by_cases hk : k' = k
    · rw [if_pos hk] at hlk
      cases hlk
      subst hk
      refine ⟨aseg ++ [cmd], v, diskGet_diskAppend_self s.disk g cmd aseg haseg, ?_, by simp⟩
      have := recordAt_prefix aseg [] cmd (segBytes aseg) rfl
      simpa using this
    · rw [if_neg hk] at hlk
      obtain ⟨seg', v', hseg', hrec', hM'⟩ := hInv.consistent k' cp' hlk
      by_cases hgen : cp'.gen = g
      · have hsegeq : seg' = aseg := by
          rw [hgen] at hseg'
          rw [hseg'] at haseg
          exact (Option.some.injEq _ _ ▸ haseg)
        refine ⟨aseg ++ [cmd], v', ?_, ?_, by simp [hk, hM']⟩
        · rw [hgen]
          exact diskGet_diskAppend_self s.disk g cmd aseg haseg
        · exact recordAt_append_of_some aseg [cmd] _ _ _ (hsegeq ▸ hrec')
      · refine ⟨seg', v', ?_, hrec', by simp [hk, hM']⟩
        rw [diskGet_diskAppend_ne s.disk g cmd cp'.gen hgen]
        exact hseg'
  · intro k' hlk
    rw [idxLookup_insert] at hlk
    by_cases hk : k' = k
    · rw [if_pos hk] at hlk; cases hlk
    · rw [if_neg hk] at hlk
      simp only [if_neg hk]
      exact hInv.absent k' hlk
  · intro k'
    have hd1 : diskAppend s.disk g cmd = d0 ++ [(g, aseg ++ [cmd])] := by
      rw [hdecomp, diskAppend_append, diskAppend_of_not_mem d0 g cmd hnmem]
      simp [diskAppend]
    rw [hd1, replayRaw_snoc, hcmd, load_append_set]
    rw [idxLookup_insert, idxLookup_insert]
    by_cases hk : k' = k
    · simp [hk]
    · simp only [if_neg hk]
      have hrep := hInv.replay_idx k'
      rw [hdecomp, replayRaw_snoc] at hrep
      exact hrep
  · have hdb := diskBytes_diskAppend s.disk g cmd hkeysnd hInv.active_mem
    have hul := hInv.unc_live
    rw [idxInsert_snd]
    cases hold : idxLookup s.index k with
    | none =>
      have hlive := liveBytes_idxInsert_none s.index k
        ⟨g, segBytes aseg, encLen cmd⟩ hold
      simp only [hdb, hlive]
      simp at hlive ⊢
      omega
    | some o =>
      have hlive := liveBytes_idxInsert_some s.index k
        ⟨g, segBytes aseg, encLen cmd⟩ o hold
      simp only [hdb]
      simp at hlive ⊢
      omega

/-- A set on an invariant-satisfying store always succeeds, and the
result satisfies the invariant for the updated abstract map. -/
theorem StoreInv_set (s : KvStore) (M : String → Option String) (k v : String)
    (hInv : StoreInv s M) :
    StoreInv (KvStore.set s k v).1 (fun k' => if k' = k then some v else M k') ∧
      (KvStore.set s k v).2 = none := by
  have h1 := StoreInv_setRaw s M k v hInv
  by_cases hcond : COMPACTION_THRESHOLD < (setRaw s k v).writer.uncompacted
  · obtain ⟨s', hok, hinv', hrest⟩ := compact_ok (setRaw s k v) _ h1
    rw [KvStore.set]
    simp only [if_pos hcond, hok]
    exact ⟨hinv', trivial⟩
  · rw [KvStore.set]
    simp only [if_neg hcond]
    exact ⟨h1, trivial⟩

theorem StoreInv_remove (s : KvStore) (M : String → Option String) (k : String)
    (hInv : StoreInv s M) :
    StoreInv (KvStore.remove s k).1 (fun k' => if k' = k then none else M k') := by
  by_cases habs : (idxLookup s.index k).isNone
  · rw [KvStore.remove]
    simp only [if_pos habs]
    have hMk : M k = none := hInv.absent k (by
      cases h : idxLookup s.index k with
      | none => rfl
      | some o => rw [h] at habs; simp at habs)
    constructor
    · exact hInv.sorted_keys
    · exact hInv.active_mem
    · exact hInv.active_max
    · exact hInv.readers_iff
    · exact hInv.keys_nodup
    · intro k' cp' hlk
      obtain ⟨seg', v', h1, h2, h3⟩ := hInv.consistent k' cp' hlk
      refine ⟨seg', v', h1, h2, ?_⟩
      by_cases hk : k' = k
      · subst hk
        rw [hMk] at h3
        cases h3
      · simpa [hk] using h3
    · intro k' hlk
      by_cases hk : k' = k <;> simp [hk, hInv.absent k' hlk]
    · exact hInv.replay_idx
    · exact hInv.unc_live
  · obtain ⟨d0, aseg, hdecomp, hnmem⟩ := disk_max_decomp s.disk s.writer.current_gen
      hInv.sorted_keys hInv.active_mem hInv.active_max
    have haseg : diskGet s.disk s.writer.current_gen = some aseg := by
      rw [hdecomp, diskGet_append, diskGet_eq_none_of_not_mem d0 _ hnmem]
      simp [diskGet]
    have hkeysnd : (s.disk.map Prod.fst).Nodup := hInv.sorted_keys.nodup
    set g := s.writer.current_gen with hgdef
    set cmd := Command.remove k with hcmd
    rw [KvStore.remove]
    simp only [if_neg habs]
    constructor
    · rw [keys_diskAppend]; exact hInv.sorted_keys
    · rw [keys_diskAppend]; exact hInv.active_mem
    · rw [keys_diskAppend]; exact hInv.active_max
    · rw [keys_diskAppend]; exact hInv.readers_iff
    · exact keys_idxErase_nodup s.index k hInv.keys_nodup
    · intro k' cp' hlk
      rw [idxLookup_erase s.index k k' hInv.keys_nodup] at hlk
      by_cases hk : k' = k
      · rw [if_pos hk] at hlk; cases hlk
      · rw [if_neg hk] at hlk
        obtain ⟨seg', v', hseg', hrec', hM'⟩ := hInv.consistent k' cp' hlk
        by_cases hgen : cp'.gen = g
        · have hsegeq : seg' = aseg := by
            rw [hgen] at hseg'
            rw [hseg'] at haseg
            exact (Option.some.injEq _ _ ▸ haseg)
          refine ⟨aseg ++ [cmd], v', ?_, ?_, by simp [hk, hM']⟩
          · rw [hgen]
            exact diskGet_diskAppend_self s.disk g cmd aseg haseg
          · exact recordAt_append_of_some aseg [cmd] _ _ _ (hsegeq ▸ hrec')
        · refine ⟨seg', v', ?_, hrec', by simp [hk, hM']⟩
          rw [diskGet_diskAppend_ne s.disk g cmd cp'.gen hgen]
          exact hseg'
    · intro k' hlk
      rw [idxLookup_erase s.index k k' hInv.keys_nodup] at hlk
      by_cases hk : k' = k
      · simp [hk]
      · rw [if_neg hk] at hlk
        simp only [if_neg hk]
        exact hInv.absent k' hlk
    · intro k'
      have hd1 : diskAppend s.disk g cmd = d0 ++ [(g, aseg ++ [cmd])] := by
        rw [hdecomp, diskAppend_append, diskAppend_of_not_mem d0 g cmd hnmem]
        simp [diskAppend]
      have hreplaynd : (((load g aseg (replayRaw d0).1).1).map Prod.fst).Nodup := by
        have := replayRaw_nodup s.disk
        rw [hdecomp, replayRaw_snoc] at this
        exact this
      rw [hd1, replayRaw_snoc, hcmd, load_append_remove]
      rw [idxLookup_erase _ _ _ hreplaynd, idxLookup_erase _ _ _ hInv.keys_nodup]
      by_cases hk : k' = k
      · simp [hk]
      · simp only [if_neg hk]
        have hrep := hInv.replay_idx k'
        rw [hdecomp, replayRaw_snoc] at hrep
        exact hrep
    · have hdb := diskBytes_diskAppend s.disk g cmd hkeysnd hInv.active_mem
      have hul := hInv.unc_live
      rw [idxErase_snd]
      cases hold : idxLookup s.index k with
      | none => rw [hold] at habs; simp at habs
      | some o =>
        have hlive := liveBytes_idxErase_some s.index k o hold
        simp only [hdb]
        simp at hlive ⊢
        omega

theorem get_frame (s : KvStore) (k : String) :
    (KvStore.get s k).1.disk = s.disk ∧ (KvStore.get s k).1.index = s.index ∧
      (KvStore.get s k).1.writer = s.writer ∧
      (KvStore.get s k).1.safe_point = s.safe_point := by
  rw [KvStore.get]
  cases idxLookup s.index k <;> simp

theorem get_spec (s : KvStore) (M : String → Option String)
    (hInv : StoreInv s M) (k : String) :
    (KvStore.get s k).2 = .ok (M k) := by
  rw [KvStore.get]
  cases hlk : idxLookup s.index k with
  | none => simp [hInv.absent k hlk]
  | some cp =>
    obtain ⟨seg, v, hseg, hrec, hM⟩ := hInv.consistent k cp hlk
    simp only [read_command, hseg, Option.getD_some, hrec, hM]

theorem StoreInv_applyOp (s : KvStore) (M : String → Option String) (o : Op)
    (h : StoreInv s M) : StoreInv (applyOp s o) (specApply M o) := by
  cases o with
  | set k v => exact (StoreInv_set s M k v h).1
  | remove k => exact StoreInv_remove s M k h
  | get k =>
    obtain ⟨hd, hi, hw, _⟩ := get_frame s k
    exact StoreInv_of_eq s _ (specApply M (.get k)) h hd hi hw

theorem StoreInv_empty : StoreInv emptyStore (fun _ => none) := by
  have he : emptyStore =
      { disk := [(1, [])], index := []
        writer := { current_gen := 1, readers := [1], uncompacted := 0 }
        safe_point := 0, reader_cache := [] } := by decide
  rw [he]
  constructor
  · simp
  · simp
  · intro g' hg'
    simp at hg'
    subst hg'
    simp
  · intro x
    simp
  · simp
  · intro k cp h
    simp [idxLookup] at h
  · intro k _
    rfl
  · intro k
    rfl
  · simp [liveBytes, diskBytes, segBytes]

theorem StoreInv_runOps (ops : List Op) :
    StoreInv (runOps emptyStore ops) (specRun (fun _ => none) ops) := by
  suffices h : ∀ ops (s : KvStore) M, StoreInv s M →
      StoreInv (runOps s ops) (specRun M ops) from
    h ops _ _ StoreInv_empty
  intro ops
  induction ops with
  | nil => intro s M h; exact h
  | cons o rest ih =>
    intro s M h
    exact ih _ _ (StoreInv_applyOp s M o h)

/-- Every successful compaction resets the stale counter to zero, rotates
the active generation up by two and publishes the compaction generation
as the new safe point, whatever state it runs on. -/
theorem compact_shape (s s' : KvStore) (h : compact s = .ok s') :
    s'.writer.uncompacted = 0 ∧
      s'.writer.current_gen = s.writer.current_gen + 2 ∧
      s'.safe_point = s.writer.current_gen + 1 := by
  rw [compact] at h
  split at h
  all_goals try (cases h; exact ⟨rfl, rfl, rfl⟩)
  all_goals cases h

theorem compactEntries_error_shape (cgen : Nat) (readers : List Nat)
    (idx : Index) (d : Disk) (npos : Nat) (e : KvError)
    (h : compactEntries cgen readers idx d npos = .error e) :
    e ≠ KvError.KeyNotFound := by
  induction idx generalizing d npos with
  | nil => simp [compactEntries] at h
  | cons ent rest ih =>
    obtain ⟨k0, cp0⟩ := ent
    rw [compactEntries] at h
    by_cases hr : cp0.gen ∈ readers
    · rw [if_pos hr] at h
      cases hrec : recordAt ((diskGet d cp0.gen).getD []) cp0.pos cp0.len with
      | none =>
        simp only [hrec] at h
        cases h
        intro hcon
        cases hcon
      | some c =>
        simp only [hrec] at h
        cases hce : compactEntries cgen readers rest (diskAppend d cgen c)
            (npos + cp0.len) with
        | ok r =>
          obtain ⟨a, b, c'⟩ := r
          simp only [hce] at h
          cases h
        | error e' =>
          simp only [hce] at h
          cases h
          exact ih _ _ hce
    · rw [if_neg hr] at h
      cases h
      intro hcon
      cases hcon

theorem compact_no_keynotfound (s : KvStore) :
    compact s ≠ .error KvError.KeyNotFound := by
  intro h
  rw [compact] at h
  split at h
  · rename_i e heq
    cases h
    exact compactEntries_error_shape _ _ _ _ _ _ heq rfl
  · cases h

theorem escLenList_replicate (n : Nat) : escLenList (List.replicate n 'a') = n := by
  induction n with
  | zero => rfl
  | succ m ih =>
    rw [List.replicate_succ, escLenList, ih]
    have h1 : escCharLen 'a' = 1 := by decide
    omega

theorem emptyStore_eq : emptyStore =
    { disk := [(1, [])], index := []
      writer := { current_gen := 1, readers := [1], uncompacted := 0 }
      safe_point := 0, reader_cache := [] } := by decide

/-- The dispatch of one request produces exactly the response the engine
semantics dictates at that state. -/
theorem respMatches_requestStep (s : KvStore) (r : Request) :
    respMatches s r (requestStep s r).2 := by
  cases r with
  | Set k v =>
    simp only [requestStep, respMatches]
    cases h : (KvStore.set s k v).2 with
    | none => exact Or.inl ⟨rfl, rfl⟩
    | some e => exact Or.inr ⟨e, rfl, rfl⟩
  | Get k =>
    simp only [requestStep, respMatches]
    cases h : (KvStore.get s k).2 with
    | ok v => exact Or.inl ⟨v, rfl, rfl⟩
    | error e => exact Or.inr ⟨e, rfl, rfl⟩
  | Remove k =>
    simp only [requestStep, respMatches]
    cases h : (KvStore.remove s k).2 with
    | none => exact Or.inl ⟨rfl, rfl⟩
    | some e => exact Or.inr ⟨e, rfl, rfl⟩

/-! ### Claim theorems -/

/-- Claim C1: for every key k and every sequence of engine operations
starting from an empty store, get k returns the value of the most recent
set k v, unless a later remove k occurred, in which case (and when k was
never set) it returns absent; the abstract fold specRun expresses exactly
that reading of the trace. -/
theorem claim_C1 (ops : List Op) (k : String) :
    (KvStore.get (runOps emptyStore ops) k).2 =
      .ok (specRun (fun _ => none) ops k) :=
  get_spec _ _ (StoreInv_runOps ops) k

/-- Claim C7: in every state reachable by operations from an empty store,
every CommandPos in the index points to a byte range of an existing
segment that decodes to a Set command whose key equals the index key, and
consequently get never surfaces the UnexpectedCommandType error. -/
theorem claim_C7 (ops : List Op) (k : String) (cp : CommandPos)
    (h : idxLookup (runOps emptyStore ops).index k = some cp) :
    (∃ seg v, diskGet (runOps emptyStore ops).disk cp.gen = some seg ∧
      recordAt seg cp.pos cp.len = some (Command.set k v)) ∧
    ∀ k', (KvStore.get (runOps emptyStore ops) k').2 ≠
      .error KvError.UnexpectedCommandType := by
  have hInv := StoreInv_runOps ops
  constructor
  · obtain ⟨seg, v, h1, h2, _⟩ := hInv.consistent k cp h
    exact ⟨seg, v, h1, h2⟩
  · intro k'
    rw [get_spec _ _ hInv k']
    intro hcon
    cases hcon

/-- A concrete run exercising claim C7's hypothesis: after one set, the
index entry of the key points at its Set record. -/
theorem claim_C7_witness :
    (∃ seg v, diskGet (runOps emptyStore [Op.set "a" "1"]).disk 1 = some seg ∧
      recordAt seg 0 31 = some (Command.set "a" v)) ∧
    ∀ k', (KvStore.get (runOps emptyStore [Op.set "a" "1"]) k').2 ≠
      .error KvError.UnexpectedCommandType := by
  have h := claim_C7 [Op.set "a" "1"] "a" ⟨1, 0, 31⟩ (by decide)
  exact h

/-- Claim C4 (confirmed): for every reachable state with active
generation g, compaction succeeds, writes the compacted records to
generation g + 1 (which exists on disk afterwards), makes g + 2 the new
active generation, publishes safe point g + 1, leaves every index entry
pointing at generation g + 1 (hence at or above the safe point), and
leaves no file on disk below the safe point. -/
theorem claim_C4 (ops : List Op) :
    ∃ s', compact (runOps emptyStore ops) = .ok s' ∧
      (∃ seg, diskGet s'.disk
        ((runOps emptyStore ops).writer.current_gen + 1) = some seg) ∧
      s'.writer.current_gen = (runOps emptyStore ops).writer.current_gen + 2 ∧
      s'.safe_point = (runOps emptyStore ops).writer.current_gen + 1 ∧
      (∀ k cp, idxLookup s'.index k = some cp →
        cp.gen = (runOps emptyStore ops).writer.current_gen + 1 ∧
          s'.safe_point ≤ cp.gen) ∧
      (∀ g ∈ s'.disk.map Prod.fst, s'.safe_point ≤ g) := by
  obtain ⟨s', hok, hinv', hunc, hgen, hsp, hcache, hidx, hkeys, hlive⟩ :=
    compact_ok (runOps emptyStore ops) _ (StoreInv_runOps ops)
  refine ⟨s', hok, ?_, hgen, hsp, ?_, ?_⟩
  · exact diskGet_mem s'.disk _ (by rw [hkeys]; simp)
  · intro k cp hlk
    rw [hidx] at hlk
    have := transformIdx_lookup_gen _ _ _ _ _ hlk
    omega
  · intro g hg
    rw [hkeys] at hg
    simp at hg
    omega

/-- A concrete run exercising claim C4's index clause: compacting after
one set moves the entry of the key to the compaction generation. -/
theorem claim_C4_witness :
    ∃ s', compact (runOps emptyStore [Op.set "a" "1"]) = .ok s' ∧
      (∃ seg, diskGet s'.disk 2 = some seg) ∧
      s'.writer.current_gen = 3 ∧ s'.safe_point = 2 ∧
      (∀ k cp, idxLookup s'.index k = some cp → cp.gen = 2 ∧ s'.safe_point ≤ cp.gen) ∧
      (∀ g ∈ s'.disk.map Prod.fst, s'.safe_point ≤ g) := by
  have h := claim_C4 [Op.set "a" "1"]
  have hgen : (runOps emptyStore [Op.set "a" "1"]).writer.current_gen = 1 := by decide
  rw [hgen] at h
  exact h

/-- Claim C3 is corrected by claim_C3_counterexample: the live remove
path credits only the displaced Set record's bytes, not the Remove
record's own bytes, so uncompacted undercounts the dead bytes.  What does
hold: in every reachable state uncompacted plus the live bytes never
exceeds the total log bytes (uncompacted is a lower bound on dead bytes);
replaying the directory of a reachable state computes an uncompacted
that accounts exactly for every dead byte; and a successful compaction
resets uncompacted to 0. -/
theorem claim_C3 :
    (∀ ops, (runOps emptyStore ops).writer.uncompacted +
        liveBytes (runOps emptyStore ops).index ≤
      diskBytes (runOps emptyStore ops).disk) ∧
    (∀ ops, (KvStore.openStore (runOps emptyStore ops).disk).writer.uncompacted +
        liveBytes (KvStore.openStore (runOps emptyStore ops).disk).index =
      diskBytes (runOps emptyStore ops).disk) ∧
    (∀ ops, ∃ s', compact (runOps emptyStore ops) = .ok s' ∧
      s'.writer.uncompacted = 0) := by
  refine ⟨fun ops => (StoreInv_runOps ops).unc_live, fun ops => ?_, fun ops => ?_⟩
  · have hInv := StoreInv_runOps ops
    rw [openStore_eq_of_sorted _ hInv.sorted_keys]
    exact replayRaw_unc_live (runOps emptyStore ops).disk
  · obtain ⟨s', hok, _, hunc, _⟩ := compact_ok (runOps emptyStore ops) _
      (StoreInv_runOps ops)
    exact ⟨s', hok, hunc⟩

/-- Claim C3 as stated is false on the code: after set a then remove a
from a fresh store, uncompacted counts only the overwritten Set record
(31 bytes) while the bytes not reachable from the index also include the
Remove record itself (22 more bytes). -/
theorem claim_C3_counterexample :
    (runOps emptyStore [Op.set "a" "1", Op.remove "a"]).writer.uncompacted = 31 ∧
    diskBytes (runOps emptyStore [Op.set "a" "1", Op.remove "a"]).disk -
      liveBytes (runOps emptyStore [Op.set "a" "1", Op.remove "a"]).index = 53 ∧
    (runOps emptyStore [Op.set "a" "1", Op.remove "a"]).writer.uncompacted ≠
      diskBytes (runOps emptyStore [Op.set "a" "1", Op.remove "a"]).disk -
        liveBytes (runOps emptyStore [Op.set "a" "1", Op.remove "a"]).index := by
  decide

/-- Claim C2: re-opening the engine on the directory of any reachable
state replays all segments in ascending generation order and rebuilds an
index whose lookups agree pointer for pointer with the live index, so
every get answers identically before close and after reopening. -/
theorem claim_C2 (ops : List Op) (k : String) :
    idxLookup (KvStore.openStore (runOps emptyStore ops).disk).index k =
      idxLookup (runOps emptyStore ops).index k ∧
    (KvStore.get (KvStore.openStore (runOps emptyStore ops).disk) k).2 =
      (KvStore.get (runOps emptyStore ops) k).2 := by
  have hInv := StoreInv_runOps ops
  set s := runOps emptyStore ops with hs
  obtain ⟨d0, aseg, hdecomp, hnmem⟩ := disk_max_decomp s.disk s.writer.current_gen
    hInv.sorted_keys hInv.active_mem hInv.active_max
  have hlast : ((s.disk.map Prod.fst).getLast?.getD 0) = s.writer.current_gen := by
    rw [hdecomp]
    simp [List.getLast?_append]
  have hopen := openStore_eq_of_sorted s.disk hInv.sorted_keys
  have hnew : diskCreate s.disk ((s.disk.map Prod.fst).getLast?.getD 0 + 1) =
      s.disk ++ [((s.disk.map Prod.fst).getLast?.getD 0 + 1, [])] := by
    apply diskCreate_of_forall_lt
    intro g' hg'
    have := hInv.active_max g' hg'
    omega
  have hidx : idxLookup (KvStore.openStore s.disk).index k = idxLookup s.index k := by
    rw [hopen]
    exact hInv.replay_idx k
  refine ⟨hidx, ?_⟩
  rw [KvStore.get, KvStore.get, hidx]
  cases hlk : idxLookup s.index k with
  | none => rfl
  | some cp =>
    obtain ⟨seg, v, hseg, hrec, _⟩ := hInv.consistent k cp hlk
    have hmem := mem_of_diskGet _ _ _ hseg
    have hseg' : diskGet (KvStore.openStore s.disk).disk cp.gen = some seg := by
      rw [hopen]
      simp only [hnew]
      rw [diskGet_append, hseg]
    simp only [read_command, hseg, hseg', Option.getD_some, hrec]

/-- Claim C6: remove fails with KeyNotFound exactly when the key is
absent from the index, and then returns with the state unchanged (no
record appended, index and uncompacted untouched); no other operation
surfaces KeyNotFound, and get on an absent key answers Ok none. -/
theorem claim_C6 (s : KvStore) (k : String) :
    ((KvStore.remove s k).2 = some KvError.KeyNotFound ↔
      idxLookup s.index k = none) ∧
    (idxLookup s.index k = none →
      KvStore.remove s k = (s, some KvError.KeyNotFound)) ∧
    (∀ v, (KvStore.set s k v).2 ≠ some KvError.KeyNotFound) ∧
    ((KvStore.get s k).2 ≠ .error KvError.KeyNotFound) ∧
    (idxLookup s.index k = none → (KvStore.get s k).2 = .ok none) := by
  refine ⟨⟨?_, ?_⟩, ?_, ?_, ?_, ?_⟩
  · intro h
    rw [KvStore.remove] at h
    by_cases habs : (idxLookup s.index k).isNone
    · cases hlk : idxLookup s.index k with
      | none => rfl
      | some o => rw [hlk] at habs; simp at habs
    · rw [if_neg habs] at h
      simp at h
  · intro h
    rw [KvStore.remove, if_pos (by rw [h]; rfl)]
  · intro h
    rw [KvStore.remove, if_pos (by rw [h]; rfl)]
  · intro v h
    rw [KvStore.set] at h
    by_cases hcond : COMPACTION_THRESHOLD < (setRaw s k v).writer.uncompacted
    · rw [if_pos hcond] at h
      cases hcomp : compact (setRaw s k v) with
      | ok s2 => rw [hcomp] at h; simp at h
      | error e =>
        rw [hcomp] at h
        simp at h
        rw [h] at hcomp
        exact compact_no_keynotfound _ hcomp
    · rw [if_neg hcond] at h
      simp at h
  · intro h
    rw [KvStore.get] at h
    cases hlk : idxLookup s.index k with
    | none => rw [hlk] at h; simp at h
    | some cp =>
      rw [hlk] at h
      simp only [read_command] at h
      cases hrec : recordAt ((diskGet s.disk cp.gen).getD []) cp.pos cp.len with
      | none => rw [hrec] at h; simp at h
      | some c =>
        rw [hrec] at h
        cases c <;> simp at h
  · intro h
    rw [KvStore.get, h]

/-- A concrete instance of claim C6: removing from the fresh empty store
fails with KeyNotFound and leaves the store untouched, and get on the
same absent key answers Ok none. -/
theorem claim_C6_witness :
    KvStore.remove emptyStore "a" = (emptyStore, some KvError.KeyNotFound) ∧
      (KvStore.get emptyStore "a").2 = .ok none :=
  ⟨(claim_C6 emptyStore "a").2.1 (by decide),
    (claim_C6 emptyStore "a").2.2.2.2 (by decide)⟩

/-- The reader cache read_command leaves behind: stale handles evicted
when a safe point is published, then the target generation added if not
already cached; the decode outcome does not affect the cache. -/
theorem read_command_cache (s : KvStore) (cp : CommandPos) :
    (read_command s cp).2 =
      (if cp.gen ∈ close_stale_readers s.reader_cache s.safe_point then
        close_stale_readers s.reader_cache s.safe_point
      else close_stale_readers s.reader_cache s.safe_point ++ [cp.gen]) := by
  rw [read_command]
  cases recordAt ((diskGet s.disk cp.gen).getD []) cp.pos cp.len with
  | none => rfl
  | some c => cases c <;> rfl

/-- Claim C10: get leaves every piece of shared engine state untouched
(directory contents, index, writer state with its generation, position
and uncompacted counter, and safe point); the only state it may change is
the invoking handle's private reader cache, by lazily opening a handle
for the looked-up generation and, when it reads (the key is present) and
a safe point is published, evicting handles below the safe point. -/
theorem claim_C10 (s : KvStore) (k : String) (g : Nat) :
    (KvStore.get s k).1.disk = s.disk ∧
    (KvStore.get s k).1.index = s.index ∧
    (KvStore.get s k).1.writer = s.writer ∧
    (KvStore.get s k).1.safe_point = s.safe_point ∧
    (g ∈ (KvStore.get s k).1.reader_cache →
      g ∈ s.reader_cache ∨ ∃ cp, idxLookup s.index k = some cp ∧ g = cp.gen) ∧
    (0 < s.safe_point → (∃ cp0, idxLookup s.index k = some cp0) →
      g ∈ (KvStore.get s k).1.reader_cache →
      s.safe_point ≤ g ∨ ∃ cp, idxLookup s.index k = some cp ∧ g = cp.gen) := by
  obtain ⟨hd, hi, hw, hsp⟩ := get_frame s k
  refine ⟨hd, hi, hw, hsp, ?_, ?_⟩
  · intro hmem
    rw [KvStore.get] at hmem
    cases hlk : idxLookup s.index k with
    | none =>
      rw [hlk] at hmem
      exact Or.inl hmem
    | some cp =>
      rw [hlk] at hmem
      simp only [read_command_cache, close_stale_readers] at hmem
      by_cases hin : cp.gen ∈ (if 0 < s.safe_point then
          s.reader_cache.filter (fun g0 => decide (s.safe_point ≤ g0))
        else s.reader_cache)
      · rw [if_pos hin] at hmem
        by_cases hsp0 : 0 < s.safe_point
        · rw [if_pos hsp0] at hmem
          exact Or.inl (List.mem_filter.mp hmem).1
        · rw [if_neg hsp0] at hmem
          exact Or.inl hmem
      · rw [if_neg hin] at hmem
        rcases List.mem_append.mp hmem with hmem | hmem
        · by_cases hsp0 : 0 < s.safe_point
          · rw [if_pos hsp0] at hmem
            exact Or.inl (List.mem_filter.mp hmem).1
          · rw [if_neg hsp0] at hmem
            exact Or.inl hmem
        · simp at hmem
          exact Or.inr ⟨cp, rfl, hmem⟩
  · intro hsp0 hsome hmem
    rw [KvStore.get] at hmem
    cases hlk : idxLookup s.index k with
    | none =>
      obtain ⟨cp0, hcp0⟩ := hsome
      rw [hlk] at hcp0
      cases hcp0
    | some cp =>
      rw [hlk] at hmem
      simp only [read_command_cache, close_stale_readers, if_pos hsp0] at hmem
      by_cases hin : cp.gen ∈ s.reader_cache.filter (fun g0 => decide (s.safe_point ≤ g0))
      · rw [if_pos hin] at hmem
        have := (List.mem_filter.mp hmem).2
        simp at this
        exact Or.inl this
      · rw [if_neg hin] at hmem
        rcases List.mem_append.mp hmem with hmem | hmem
        · have := (List.mem_filter.mp hmem).2
          simp at this
          exact Or.inl this
        · simp at hmem
          exact Or.inr ⟨cp, rfl, hmem⟩

/-- A concrete instance of claim C10: with a published safe point of 1
and a cached stale handle for generation 0, a get of a present key leaves
the shared writer untouched, and every generation in the resulting cache
is at or above the safe point or is the looked-up generation. -/
theorem claim_C10_witness :
    (KvStore.get
        { disk := [(1, [Command.set "a" "1"])]
          index := [("a", ⟨1, 0, 31⟩)]
          writer := { current_gen := 1, readers := [1], uncompacted := 0 }
          safe_point := 1, reader_cache := [0, 1] } "a").1.writer =
      ({ current_gen := 1, readers := [1], uncompacted := 0 } : KvStoreWriter) ∧
    ((1 : Nat) ≤ 1 ∨
      ∃ cp, idxLookup [("a", (⟨1, 0, 31⟩ : CommandPos))] "a" = some cp ∧
        1 = cp.gen) := by
  refine ⟨?_, ?_⟩
  · exact (claim_C10 _ "a" 1).2.2.1
  · exact (claim_C10
      { disk := [(1, [Command.set "a" "1"])]
        index := [("a", ⟨1, 0, 31⟩)]
        writer := { current_gen := 1, readers := [1], uncompacted := 0 }
        safe_point := 1, reader_cache := [0, 1] } "a" 1).2.2.2.2.2
      (by decide) ⟨⟨1, 0, 31⟩, by decide⟩ (by decide)

/-- Claim C8 (amended): sorted_gen_list returns, sorted ascending, one
generation per directory entry that is a regular file whose extension is
log and whose name, after stripping every trailing ".log" suffix, parses
as a u64 in Rust semantics (optional leading plus, leading zeros allowed,
value below 2^64); the claim's reading — only names that are exactly a
decimal numeral followed by a single ".log" — is refuted by
claim_C8_counterexample. -/
theorem claim_C8 (d : List DirEntry) :
    List.Sorted (· ≤ ·) (sorted_gen_list d) ∧
    ∀ n, n ∈ sorted_gen_list d ↔ ∃ e ∈ d, e.isFile = true ∧
      rustExtension e.name = some "log" ∧ parseU64 (trimEndLog e.name) = some n := by
  constructor
  · simp only [sorted_gen_list]
    exact List.sorted_insertionSort _ _
  · intro n
    simp only [sorted_gen_list]
    rw [(List.perm_insertionSort _ _).mem_iff]
    simp only [List.mem_filterMap, List.mem_filter, Bool.and_eq_true, beq_iff_eq]
    constructor
    · rintro ⟨e, ⟨he, hf, hext⟩, hp⟩
      exact ⟨e, he, hf, hext, hp⟩
    · rintro ⟨e, he, hf, hext, hp⟩
      exact ⟨e, ⟨he, hf, hext⟩, hp⟩

/-- Claim C8 as stated is false on the code: the file "5.log.log" is not
named by a u64 numeral followed by ".log", yet str::trim_end_matches
strips every trailing ".log" repetition, so sorted_gen_list parses it as
generation 5 instead of ignoring it. -/
theorem claim_C8_counterexample :
    sorted_gen_list [⟨"5.log.log", true⟩] = [5] ∧
    claimGenList [⟨"5.log.log", true⟩] = [] ∧
    sorted_gen_list [⟨"5.log.log", true⟩] ≠ claimGenList [⟨"5.log.log", true⟩] := by
  decide

/-- Claim C9: the connection loop answers every decoded request with
exactly one response, in request order, each response being the one the
engine semantics dictates at the state reached by the preceding requests
(Ok null for successful Set and Remove, the looked-up value for Get, the
rendered engine error otherwise); an engine error never drops subsequent
requests. -/
theorem claim_C9 (s : KvStore) (reqs : List Request) :
    (handle_connection s reqs).2.length = reqs.length ∧
    ∀ i, i < reqs.length →
      ∃ req resp, reqs[i]? = some req ∧
        (handle_connection s reqs).2[i]? = some resp ∧
        respMatches (serverState s (reqs.take i)) req resp := by
  induction reqs generalizing s with
  | nil =>
    exact ⟨rfl, fun i hi => absurd hi (by simp)⟩
  | cons r rest ih =>
    simp only [handle_connection]
    refine ⟨by simp [(ih (requestStep s r).1).1], ?_⟩
    intro i hi
    cases i with
    | zero =>
      refine ⟨r, (requestStep s r).2, by simp, by simp, ?_⟩
      simpa [serverState] using respMatches_requestStep s r
    | succ j =>
      have hj : j < rest.length := by simpa using hi
      obtain ⟨req, resp, h1, h2, h3⟩ := (ih (requestStep s r).1).2 j hj
      refine ⟨req, resp, by simpa using h1, by simpa using h2, ?_⟩
      simpa [serverState, List.take_succ_cons] using h3

/-- A concrete instance of claim C9 at the pipelined seed scenario: the
second request of the pipeline receives the second response, matching
the engine outcome after the first request. -/
theorem claim_C9_witness :
    ∃ req resp,
      ([Request.Set "a" "1", Request.Get "a", Request.Remove "a",
        Request.Get "a"][1]?) = some req ∧
      ((handle_connection emptyStore [Request.Set "a" "1", Request.Get "a",
        Request.Remove "a", Request.Get "a"]).2[1]?) = some resp ∧
      respMatches (serverState emptyStore ([Request.Set "a" "1", Request.Get "a",
        Request.Remove "a", Request.Get "a"].take 1)) req resp :=
  (claim_C9 emptyStore _).2 1 (by decide)

/-- Claim C5 is corrected by claim_C5_counterexample: only set checks the
compaction threshold; remove updates the stale counter without ever
triggering compaction.  What does hold: after every successful set the
counter is at most the 1 MiB threshold (set compacts before returning
when the counter exceeds it), while a successful remove never decreases
the counter. -/
theorem claim_C5 :
    (∀ (s s' : KvStore) (k v : String), KvStore.set s k v = (s', none) →
      s'.writer.uncompacted ≤ COMPACTION_THRESHOLD) ∧
    (∀ (s s' : KvStore) (k : String), KvStore.remove s k = (s', none) →
      s.writer.uncompacted ≤ s'.writer.uncompacted) := by
  constructor
  · intro s s' k v h
    rw [KvStore.set] at h
    by_cases hcond : COMPACTION_THRESHOLD < (setRaw s k v).writer.uncompacted
    · rw [if_pos hcond] at h
      cases hcomp : compact (setRaw s k v) with
      | ok s2 =>
        rw [hcomp] at h
        injection h with h1 h2
        subst h1
        rw [(compact_shape _ _ hcomp).1]
        exact Nat.zero_le _
      | error e =>
        rw [hcomp] at h
        injection h with h1 h2
        cases h2
    · rw [if_neg hcond] at h
      injection h with h1 h2
      subst h1
      omega
  · intro s s' k h
    rw [KvStore.remove] at h
    by_cases habs : (idxLookup s.index k).isNone
    · rw [if_pos habs] at h
      injection h with h1 h2
      cases h2
    · rw [if_neg habs] at h
      injection h with h1 h2
      subst h1
      exact Nat.le_add_right _ _

/-- A concrete instance of claim C5: a small successful set stays below
the threshold, and a successful remove does not decrease the counter. -/
theorem claim_C5_witness :
    (KvStore.set emptyStore "a" "1").1.writer.uncompacted ≤ COMPACTION_THRESHOLD ∧
    (KvStore.set emptyStore "a" "1").1.writer.uncompacted ≤
      (KvStore.remove (KvStore.set emptyStore "a" "1").1 "a").1.writer.uncompacted :=
  ⟨claim_C5.1 emptyStore (KvStore.set emptyStore "a" "1").1 "a" "1" (by decide),
    claim_C5.2 (KvStore.set emptyStore "a" "1").1
      (KvStore.remove (KvStore.set emptyStore "a" "1").1 "a").1 "a" (by decide)⟩

/-- Supporting equations for the counterexample below: the byte length of
an encoded Set record, and the success path of remove on a key present in
the index, stated generically so they instantiate at any value. -/
theorem encLen_set (k v : String) :
    encLen (Command.set k v) = 25 + jsonStrLen k + jsonStrLen v := rfl

theorem jsonStrLen_data (s : String) :
    jsonStrLen s = escLenList s.data + 2 := rfl

theorem remove_found (s : KvStore) (key : String) (cp : CommandPos)
    (h : idxLookup s.index key = some cp) :
    KvStore.remove s key =
      ({ s with disk := diskAppend s.disk s.writer.current_gen (Command.remove key)
                index := (idxErase s.index key).1
                writer := { s.writer with
                  uncompacted := s.writer.uncompacted + cp.len } }, none) := by
  rw [KvStore.remove, if_neg (by rw [h, Option.isNone_some]; exact Bool.false_ne_true)]
  simp only [idxErase_snd, h]

theorem remove_found_unc (s : KvStore) (key : String) (cp : CommandPos)
    (h : idxLookup s.index key = some cp) :
    (KvStore.remove s key).1.writer.uncompacted
      = s.writer.uncompacted + cp.len := by
  rw [remove_found s key cp h]

theorem remove_found_err (s : KvStore) (key : String) (cp : CommandPos)
    (h : idxLookup s.index key = some cp) :
    (KvStore.remove s key).2 = none := by
  rw [remove_found s key cp h]

/-- Claim C5 as stated is false on the code: setting a key to a value of
2097152 bytes leaves the counter at 0, and the following successful
remove credits the whole dead Set record, leaving uncompacted at 2097182
bytes, far above the 1 MiB threshold, with no compaction run. -/
theorem claim_C5_counterexample :
    (KvStore.remove (KvStore.set emptyStore "a"
        (String.mk (List.replicate 2097152 'a'))).1 "a").2 = none ∧
    COMPACTION_THRESHOLD <
      (KvStore.remove (KvStore.set emptyStore "a"
        (String.mk (List.replicate 2097152 'a'))).1 "a").1.writer.uncompacted := by
  have hraw : setRaw emptyStore "a" (String.mk (List.replicate 2097152 'a')) =
      { disk := [(1, [Command.set "a" (String.mk (List.replicate 2097152 'a'))])]
        index := [("a", ⟨1, 0,
          encLen (Command.set "a" (String.mk (List.replicate 2097152 'a')))⟩)]
        writer := { current_gen := 1, readers := [1], uncompacted := 0 }
        safe_point := 0
        reader_cache := [] } := rfl
  have hunc0 : (setRaw emptyStore "a"
      (String.mk (List.replicate 2097152 'a'))).writer.uncompacted = 0 := by
    rw [hraw]
  have hsetkv : KvStore.set emptyStore "a" (String.mk (List.replicate 2097152 'a')) =
      (setRaw emptyStore "a" (String.mk (List.replicate 2097152 'a')), none) := by
    rw [KvStore.set, if_neg (by rw [hunc0]; decide)]
  have hfull : (KvStore.set emptyStore "a"
      (String.mk (List.replicate 2097152 'a'))).1 =
      setRaw emptyStore "a" (String.mk (List.replicate 2097152 'a')) := by
    rw [hsetkv]
  have h1 : escLenList (String.mk (List.replicate 2097152 'a')).data = 2097152 :=
    escLenList_replicate 2097152
  have h2 : escLenList "a".data = 1 := by decide
  have hlen : encLen (Command.set "a" (String.mk (List.replicate 2097152 'a')))
      = 2097182 := by
    rw [encLen_set, jsonStrLen_data, jsonStrLen_data, h1, h2]
  have hraw2 := hraw
  rw [hlen] at hraw2
  have hlook : idxLookup (setRaw emptyStore "a"
      (String.mk (List.replicate 2097152 'a'))).index "a" =
      some ⟨1, 0, 2097182⟩ := by
    rw [hraw2]
    show (if "a" = "a" then some (⟨1, 0, 2097182⟩ : CommandPos)
        else idxLookup [] "a") = _
    rw [if_pos rfl]
  constructor
  · rw [hfull]
    exact remove_found_err (setRaw emptyStore "a"
      (String.mk (List.replicate 2097152 'a'))) "a" ⟨1, 0, 2097182⟩ hlook
  · rw [hfull, remove_found_unc (setRaw emptyStore "a"
      (String.mk (List.replicate 2097152 'a'))) "a" ⟨1, 0, 2097182⟩ hlook, hunc0]
    decide
